import Mathlib

/-!
Verification development for the `ui-testing-tools` repository.

The repository contains two JavaScript scripts:
* a "Website Page Reporter" crawler (`generatePageReport` and friends), called
  `Reporter` below;
* a UI-testing tool (`crawlAndScreenshot`, `compareMenu`, `normalizeUrl` and
  friends), called `Tester` below, of which an older variant (`ui-tester.js`,
  whose `compareMenu` tracks no errors) is called `TesterOld`.

External collaborators (the WHATWG `URL` class of Node, the `pixelmatch`
pixel comparator, JSON text serialization, the browser) are modelled at the
value level; every model is documented at its definition.
-/

set_option maxHeartbeats 1000000
set_option linter.unusedVariables false

namespace UITT

/-! ### String helpers (models of the JavaScript string operations used) -/

/-- Model of JavaScript `String.prototype.startsWith`. -/
def strStartsWith (s p : String) : Bool :=
  p.data.isPrefixOf s.data

/-- Model of JavaScript `url.endsWith('#')` as used by the Reporter crawl. -/
def strEndsWithHash (s : String) : Bool :=
  s.data.getLast? = some '#'

/-- Split a character list at the first occurrence of `c`: returns the part
before it and, when `c` occurs, the part after it. -/
def splitOnFirst (c : Char) : List Char → List Char × Option (List Char)
  | [] => ([], none)
  | x :: xs =>
    if x = c then ([], some xs)
    else
      let r := splitOnFirst c xs
      (x :: r.1, r.2)

/-- Accumulator loop for `splitOnChar`. -/
def splitOnCharAux (c : Char) : List Char → List Char → List (List Char)
  | [], acc => [acc.reverse]
  | x :: xs, acc =>
    if x = c then acc.reverse :: splitOnCharAux c xs []
    else splitOnCharAux c xs (x :: acc)

/-- Split a character list on every occurrence of `c` (model of
JavaScript `String.prototype.split` with a single-character separator). -/
def splitOnChar (c : Char) (l : List Char) : List (List Char) :=
  splitOnCharAux c l []

/-! ### URL model

Model of the WHATWG `URL` class that both scripts use through Node
(`new URL(u)`, `new URL(u, base)`, the `protocol`, `host`, `hostname`,
`pathname`, `hash` accessors and `href` serialization).  The model covers
hierarchical `scheme://host/path?query#fragment` URLs: the scheme is a
non-empty letter sequence, the authority is introduced by `//` and runs to
the first `/`, the path defaults to `/`.

Known limitations, stated so that no theorem leans on them:
* percent-encoding and backslash normalization of the serializer are not
  modelled, so theorems that equate a serialized URL with a raw string
  restrict the path to characters the real serializer leaves unchanged
  (unreserved characters and slashes) and to paths without dot segments;
* opaque-path URLs (`mailto:a@b`, `data:text/plain,hi`), which Node parses
  as absolute, are not parsed by the model — the resolver treats them as
  relative references — so no theorem depends on the specific result for
  such inputs (the one property stated about arbitrary results, that they
  begin with a scheme and a colon, holds for opaque hrefs as well);
* the lowercasing of scheme and host and the slash tolerance of special
  schemes are not modelled; no claim depends on them. -/

structure URLRec where
  scheme : String
  host : String
  pathname : String
  search : Option String
  hash : Option String
deriving DecidableEq, Repr

/-- Is `c` a letter (the admissible scheme characters in the model)? -/
def schemeChar (c : Char) : Bool := c.isAlpha

/-- The part of a URL string before its fragment. -/
def beforeHash (cs : List Char) : List Char :=
  (splitOnFirst '#' cs).1

/-- The fragment of a URL string, when present. -/
def fragPart (cs : List Char) : Option (List Char) :=
  (splitOnFirst '#' cs).2

/-- Parse the fragment-free part of a URL string (scheme, authority, path,
query).  Returns `none` where `new URL` would throw, and also for
opaque-path URLs (`data:…`, `mailto:…`) that the real parser accepts as
absolute — see the model limitations above; no theorem depends on the
specific result for such inputs. -/
def parseCore (cs : List Char) : Option URLRec :=
  match splitOnFirst ':' (splitOnFirst '?' cs).1 with
  | (_, none) => none
  | (schemeCs, some rest) =>
    if schemeCs = [] then none
    else if ¬ schemeCs.all schemeChar then none
    else
      match rest with
      | '/' :: '/' :: hostPath =>
        if hostPath.takeWhile (· ≠ '/') = [] then none
        else
          some {
            scheme := ⟨schemeCs⟩,
            host := ⟨hostPath.takeWhile (· ≠ '/')⟩,
            pathname := ⟨if hostPath.dropWhile (· ≠ '/') = [] then ['/']
              else hostPath.dropWhile (· ≠ '/')⟩,
            search := (splitOnFirst '?' cs).2.map (fun l => (⟨l⟩ : String)),
            hash := none }
      | _ => none

/-- Model of `new URL(s)`: split off the fragment, parse the rest. -/
def parseURLChars (cs : List Char) : Option URLRec :=
  match parseCore (beforeHash cs) with
  | none => none
  | some r => some { r with hash := (fragPart cs).map (fun l => (⟨l⟩ : String)) }

/-- Model of `new URL(s)` on `String`. -/
def parseURL (s : String) : Option URLRec :=
  parseURLChars s.data

/-- Model of the `href` accessor: serialize a URL record.  The real
serializer additionally percent-encodes some path characters (space,
quotes, angle brackets, backquote, braces) and normalizes backslashes;
this is not modelled, and theorems comparing `href` output with raw
strings therefore restrict path characters to the unreserved set. -/
def serializeURL (r : URLRec) : String :=
  r.scheme ++ "://" ++ r.host ++
    (r.pathname ++
      ((match r.search with | none => "" | some q => "?" ++ q) ++
       (match r.hash with | none => "" | some f => "#" ++ f)))

/-- The `hostname` accessor: the host without the port. -/
def urlHostname (r : URLRec) : String :=
  ⟨r.host.data.takeWhile (· ≠ ':')⟩

/-- Directory part of a path: everything up to and including the last `/`. -/
def dirOf (l : List Char) : List Char :=
  (l.reverse.dropWhile (· ≠ '/')).reverse

/-- Remove-dot-segments step over the segments of a path (model of the
path normalization performed by the WHATWG URL parser; `..` pops a
segment, `.` is dropped, with the usual trailing-segment behaviour). -/
def rdsAux : List (List Char) → List (List Char) → List (List Char)
  | [], acc => acc
  | [s], acc =>
    if s = ['.'] then acc ++ [[]]
    else if s = ['.', '.'] then acc.dropLast ++ [[]]
    else acc ++ [s]
  | s :: t :: rest, acc =>
    if s = ['.'] then rdsAux (t :: rest) acc
    else if s = ['.', '.'] then rdsAux (t :: rest) acc.dropLast
    else rdsAux (t :: rest) (acc ++ [s])

/-- Normalize a path: remove dot segments and guarantee a leading slash. -/
def removeDotSegs (l : List Char) : List Char :=
  let joined := ((rdsAux (splitOnChar '/' l) []).intersperse ['/']).flatten
  if joined.head? = some '/' then joined else '/' :: joined

/-- The path part of a fragment-free relative reference (before its query). -/
def relPath (bh : List Char) : List Char :=
  (splitOnFirst '?' bh).1

/-- The query of a fragment-free relative reference, when present. -/
def relQuery (bh : List Char) : Option (List Char) :=
  (splitOnFirst '?' bh).2

/-- Resolution of a fragment-free reference against a base (the fragment
of the original reference is re-attached by `resolveChars`). -/
def resolveCore (bh base : List Char) : Option URLRec :=
  match parseCore bh with
  | some r => some r
  | none =>
    match parseURLChars base with
    | none => none
    | some b =>
      if relPath bh = [] then
        some { b with
          search := (match relQuery bh with
            | some qs => some (⟨qs⟩ : String)
            | none => b.search),
          hash := none }
      else if (relPath bh).head? = some '/' then
        some { b with
          pathname := ⟨removeDotSegs (relPath bh)⟩,
          search := (relQuery bh).map (fun l => (⟨l⟩ : String)),
          hash := none }
      else
        some { b with
          pathname := ⟨removeDotSegs (dirOf b.pathname.data ++ relPath bh)⟩,
          search := (relQuery bh).map (fun l => (⟨l⟩ : String)),
          hash := none }

/-- Model of `new URL(url, base)`: absolute URLs parse on their own;
otherwise the reference is resolved against the base (path-relative and
query-only references; dot segments removed). -/
def resolveChars (url base : List Char) : Option URLRec :=
  match resolveCore (beforeHash url) base with
  | none => none
  | some r => some { r with hash := (fragPart url).map (fun l => (⟨l⟩ : String)) }

/-- Well-formedness of a URL record, as established by the parser and the
resolver: non-empty alphabetic scheme, non-empty host free of `/ ? #`,
path starting with `/` and free of `? #`, query free of `#`.  On such
records serialization inverts parsing. -/
def goodURL (r : URLRec) : Prop :=
  r.scheme.data ≠ [] ∧ (∀ c ∈ r.scheme.data, schemeChar c = true) ∧
  r.host.data ≠ [] ∧ (∀ c ∈ r.host.data, c ≠ '/' ∧ c ≠ '?' ∧ c ≠ '#') ∧
  r.pathname.data.head? = some '/' ∧ (∀ c ∈ r.pathname.data, c ≠ '?' ∧ c ≠ '#') ∧
  (∀ q, r.search = some q → ∀ c ∈ q.data, c ≠ '#')

instance (r : URLRec) : Decidable (goodURL r) := by
  unfold goodURL
  infer_instance

/-! ### Shared sanitization helpers for `createSafeFileName` -/

/-- Replace every character not satisfying `keep` by an underscore
(model of `filename.replace(/[^...]/g, '_')`). -/
def sanitizeChars (keep : Char → Bool) (l : List Char) : List Char :=
  l.map fun c => if keep c then c else '_'

/-- Collapse runs of consecutive underscores into one
(model of `filename.replace(/_+/g, '_')`). -/
def collapseUnderscores : List Char → List Char
  | [] => []
  | [c] => [c]
  | a :: b :: rest =>
    if a = '_' ∧ b = '_' then collapseUnderscores (b :: rest)
    else a :: collapseUnderscores (b :: rest)

/-- Remove one leading and one trailing underscore
(model of `filename.replace(/^_|_$/g, '')`; after collapsing, at most one
of each can occur). -/
def trimUnderscores (l : List Char) : List Char :=
  let l1 := if l.head? = some '_' then l.tail else l
  if l1.getLast? = some '_' then l1.dropLast else l1

/-! ### `Tester`: the UI-testing script (second script of `part_000`;
`ui-tester.js` shares these utility functions) -/

namespace Tester

/-- `createSafeFileName(url)` of the UI tester: hostname plus pathname with
every character outside `[a-zA-Z0-9.-]` replaced by `_`, runs of `_`
collapsed, one leading/trailing `_` trimmed, empty result replaced by
`"index"`; `"invalid_url"` when the URL does not parse. -/
def createSafeFileName (url : String) : String :=
  match UITT.parseURL url with
  | none => "invalid_url"
  | some r =>
    let raw := (UITT.urlHostname r).data ++ r.pathname.data
    let cleaned := UITT.trimUnderscores (UITT.collapseUnderscores
      (UITT.sanitizeChars
        (fun c => c.isAlphanum || c = '.' || c = '-') raw))
    if cleaned = [] then "index" else ⟨cleaned⟩

/-- `isValidUrl(string)`: does `new URL(string)` succeed? -/
def isValidUrl (s : String) : Bool :=
  (UITT.parseURL s).isSome

/-- `getDomain(url)`: the hostname, or `null` when parsing fails. -/
def getDomain (url : String) : Option String :=
  (UITT.parseURL url).map UITT.urlHostname

/-- `normalizeUrl(url, baseUrl)`: root-relative links are concatenated onto
`protocol//host` of the base (note: without fragment stripping), fragment-only
links and `mailto:`/`tel:`/`javascript:` links are rejected, everything
else is resolved by `new URL(url, baseUrl)` with the fragment cleared. -/
def normalizeUrl (url baseUrl : String) : Option String :=
  if UITT.strStartsWith url "/" then
    match UITT.parseURL baseUrl with
    | some b => some (b.scheme ++ "://" ++ b.host ++ url)
    | none => none
  else if UITT.strStartsWith url "#" then none
  else if UITT.strStartsWith url "mailto:" || UITT.strStartsWith url "tel:"
      || UITT.strStartsWith url "javascript:" then none
  else
    match UITT.resolveChars url.data baseUrl.data with
    | some r => some (UITT.serializeURL { r with hash := none })
    | none => none

/-- `getPathDepth(url)`: the number of non-empty path segments, `0` when
the URL does not parse. -/
def getPathDepth (url : String) : Nat :=
  match UITT.parseURL url with
  | none => 0
  | some r =>
    ((UITT.splitOnChar '/' r.pathname.data).filter (· ≠ [])).length

/-- The `pathname` of a URL (`new URL(u).pathname`; the crawl only applies
this to URLs that parse, so the throwing case yields a default). -/
def urlPathname (url : String) : String :=
  match UITT.parseURL url with
  | none => ""
  | some r => r.pathname

/-- One entry of `pages` / `pages.json`: the object literal built by
`crawlAndScreenshot` for each processed URL. -/
structure PageInfo where
  url : String
  type : String
  pathDepth : Nat
  path : String
  status : String
  title : Option String
  screenshotPath : Option String
  errorMessage : Option String
  canonical : String
deriving DecidableEq, Repr

/-- Outcome of the browser environment for one URL during the baseline
crawl (model of the external render surface): `fail` when navigation,
title/canonical extraction or the screenshot throws; `okNoLinks` when the
page succeeds but the link-extraction `page.evaluate` throws (this happens
after the success record was pushed); `ok` carries title, canonical link
and the extracted raw `href` strings. -/
inductive FetchOutcome where
  | fail (msg : String)
  | okNoLinks (title : String) (canonical : Option String) (msg : String)
  | ok (title : String) (canonical : Option String) (links : List String)

/-- State of the `crawlAndScreenshot` loop. -/
structure CrawlState where
  visitedUrls : List String
  urlsToVisit : List String
  pages : List PageInfo
deriving Repr

/-- The link-discovery loop of `crawlAndScreenshot`: each raw link is
normalized against the current URL and appended to the queue only when it
normalizes, stays on the crawl domain, and is in neither the visited set
nor the queue. -/
def offerLinks (domain : String) (currentUrl : String)
    (visited : List String) : List String → List String → List String
  | queue, [] => queue
  | queue, link :: rest =>
    let queue' :=
      match normalizeUrl link currentUrl with
      | some nu =>
        if getDomain nu = some domain ∧ nu ∉ visited ∧ nu ∉ queue then
          queue ++ [nu]
        else queue
      | none => queue
    offerLinks domain currentUrl visited queue' rest

/-- The success `pageInfo` object literal of `crawlAndScreenshot`
(`canonical || currentUrl` maps an absent or empty canonical to the URL). -/
def successRecord (startUrl folder currentUrl : String) (title : String)
    (canonical : Option String) : PageInfo where
  url := currentUrl
  type := if currentUrl = startUrl then "main" else "sub"
  pathDepth := getPathDepth currentUrl
  path := urlPathname currentUrl
  status := "success"
  title := some title
  screenshotPath := some (folder ++ "/" ++ createSafeFileName currentUrl ++ ".png")
  errorMessage := none
  canonical := match canonical with
    | none => currentUrl
    | some c => if c = "" then currentUrl else c

/-- The error `pageInfo` object literal of `crawlAndScreenshot`. -/
def errorRecord (startUrl currentUrl msg : String) : PageInfo where
  url := currentUrl
  type := if currentUrl = startUrl then "main" else "sub"
  pathDepth := getPathDepth currentUrl
  path := urlPathname currentUrl
  status := "error"
  title := none
  screenshotPath := none
  errorMessage := some msg
  canonical := currentUrl

/-- One iteration of the `while (urlsToVisit.length > 0)` loop of
`crawlAndScreenshot`: dequeue, skip if visited, otherwise mark visited,
fetch, record, and offer the discovered links.  When link extraction
throws after the success record was pushed, the catch block pushes a
second (error) record for the same URL. -/
def crawlStep (env : String → FetchOutcome) (domain startUrl folder : String)
    (s : CrawlState) : CrawlState :=
  match s.urlsToVisit with
  | [] => s
  | currentUrl :: rest =>
    if currentUrl ∈ s.visitedUrls then
      { s with urlsToVisit := rest }
    else
      let visited' := s.visitedUrls ++ [currentUrl]
      match env currentUrl with
      | .fail msg =>
        { visitedUrls := visited', urlsToVisit := rest,
          pages := s.pages ++ [errorRecord startUrl currentUrl msg] }
      | .okNoLinks title canonical msg =>
        { visitedUrls := visited', urlsToVisit := rest,
          pages := s.pages ++ [successRecord startUrl folder currentUrl title canonical,
                               errorRecord startUrl currentUrl msg] }
      | .ok title canonical links =>
        { visitedUrls := visited',
          urlsToVisit := offerLinks domain currentUrl visited' rest links,
          pages := s.pages ++ [successRecord startUrl folder currentUrl title canonical] }

/-- Fuelled run of the `crawlAndScreenshot` loop. -/
def crawlRun (env : String → FetchOutcome) (domain startUrl folder : String) :
    Nat → CrawlState → CrawlState
  | 0, s => s
  | fuel + 1, s =>
    if s.urlsToVisit = [] then s
    else crawlRun env domain startUrl folder fuel
      (crawlStep env domain startUrl folder s)

/-- `crawlAndScreenshot(startUrl)`: throws when the start URL has no
domain, otherwise runs the crawl loop from the singleton queue. -/
def crawlAndScreenshot (env : String → FetchOutcome) (startUrl folder : String)
    (fuel : Nat) : Option CrawlState :=
  (getDomain startUrl).map fun domain =>
    crawlRun env domain startUrl folder fuel ⟨[], [startUrl], []⟩

/-- The frontier invariant of `crawlAndScreenshot`: the pending queue has
no duplicates, no pending URL is already visited, and the visited set has
no duplicates (URLs are navigated at most once). -/
def frontierInv (s : CrawlState) : Prop :=
  s.urlsToVisit.Nodup ∧ (∀ u ∈ s.urlsToVisit, u ∉ s.visitedUrls) ∧
    s.visitedUrls.Nodup

end Tester

/-! ### Image and pixel-comparison model -/

/-- A decoded PNG as used by the comparison pass: declared dimensions and
the pixel array (one abstract value per pixel; the real library works on
4 bytes per pixel, so array lengths here are in pixels). -/
structure Image where
  width : Nat
  height : Nat
  data : List Nat
deriving DecidableEq, Repr

/-- Count positions at which two pixel arrays differ.  Model of the
per-pixel work of the external `pixelmatch` library; the luminance
threshold is abstracted into plain inequality, which preserves the one
property the code relies on: identical pixels are never counted. -/
def countDiffPixels : List Nat → List Nat → Nat
  | a :: as, b :: bs => (if a = b then 0 else 1) + countDiffPixels as bs
  | _, _ => 0

/-- Model of `pixelmatch(img1, img2, output, width, height, opts)`:
the library throws (`none`) when the two data arrays have different
lengths or when their length does not match `width * height`; otherwise
it returns the count of differing pixels.  It never sees the second
image's declared dimensions. -/
def pixelmatch (d1 d2 : List Nat) (width height : Nat) : Option Nat :=
  if d1.length = d2.length ∧ d1.length = width * height then
    some (countDiffPixels d1 d2)
  else none

namespace Tester

/-- Environment outcome for one baseline page during the comparison pass:
`err` when navigation, the new screenshot, or reading either PNG throws;
`missing` when `fs.existsSync(baselineScreenshot)` is false; `imgs` carries
the two decoded images handed to `pixelmatch` (the diff-image write is
assumed to succeed). -/
inductive CompareEnv where
  | err (msg : String)
  | missing
  | imgs (baseline current : Image)

/-- The counters and lists accumulated by the `compareMenu` loop of the
UI-testing script in `part_000`. -/
structure CompareStats where
  matchCount : Nat
  changeCount : Nat
  errorCount : Nat
  totalPixelsCompared : Nat
  totalDiffPixels : Nat
  successfulComparisons : Nat
  changedPages : List String
  unchangedPages : List String
  errorPages : List (String × String)
deriving DecidableEq, Repr

/-- The all-zero stats the loop starts from. -/
def initStats : CompareStats :=
  ⟨0, 0, 0, 0, 0, 0, [], [], []⟩

/-- One iteration of the `for (const p of successPages)` loop of
`compareMenu` in `part_000`: classify the page as matched, changed or
errored and update the aggregate counters.  `percentDiff < 0.01` is
`100 * diffPixels < width * height` in exact arithmetic (the `NaN`
comparison for a zero-area image is falsy in JavaScript, which the
strict inequality also reproduces). -/
def compareStep (env : String → CompareEnv) (s : CompareStats)
    (p : PageInfo) : CompareStats :=
  match env p.url with
  | .err msg =>
    { s with errorCount := s.errorCount + 1,
             errorPages := s.errorPages ++ [(p.url, msg)] }
  | .missing =>
    { s with errorCount := s.errorCount + 1,
             errorPages := s.errorPages ++
               [(p.url, "Baseline screenshot not found")] }
  | .imgs imgA imgB =>
    match UITT.pixelmatch imgA.data imgB.data imgA.width imgA.height with
    | none =>
      { s with errorCount := s.errorCount + 1,
               errorPages := s.errorPages ++
                 [(p.url, "Image sizes do not match.")] }
    | some diffPixels =>
      let area := imgA.width * imgA.height
      let s' := { s with
        totalPixelsCompared := s.totalPixelsCompared + area,
        totalDiffPixels := s.totalDiffPixels + diffPixels,
        successfulComparisons := s.successfulComparisons + 1 }
      if 100 * diffPixels < area then
        { s' with matchCount := s'.matchCount + 1,
                  unchangedPages := s'.unchangedPages ++ [p.url] }
      else
        { s' with changeCount := s'.changeCount + 1,
                  changedPages := s'.changedPages ++ [p.url] }

/-- The whole comparison loop over the success-status baseline pages. -/
def runCompare (env : String → CompareEnv) (pages : List PageInfo) :
    CompareStats :=
  pages.foldl (compareStep env) initStats

/-- The success-page selection of `compareMenu`:
`baselinePages.filter(p => p.status === 'success')`. -/
def successPages (baselinePages : List PageInfo) : List PageInfo :=
  baselinePages.filter fun p => p.status == "success"

/-- The overall difference ratio reported by `compareMenu` (the report
multiplies it by 100 and formats with two decimals): total differing
pixels over total compared pixels when any comparison succeeded,
otherwise zero. -/
def overallDiffRatio (s : CompareStats) : ℚ :=
  if 0 < s.successfulComparisons then
    (s.totalDiffPixels : ℚ) / (s.totalPixelsCompared : ℚ)
  else 0

/-- The diff pixels and compared area a page contributes, when its
comparison succeeds (`none` for errored pages). -/
def comparedOutcome (env : String → CompareEnv) (p : PageInfo) :
    Option (Nat × Nat) :=
  match env p.url with
  | .imgs imgA imgB =>
    (UITT.pixelmatch imgA.data imgB.data imgA.width imgA.height).map
      fun d => (d, imgA.width * imgA.height)
  | _ => none

end Tester

/-! ### `TesterOld`: the `compareMenu` of `ui-tester.js`, which counts only
matches and changes; failures are written to the console log and appear in
no counter and no report field. -/

namespace TesterOld

/-- The counters accumulated by the `compareMenu` loop of `ui-tester.js`:
there is no error counter. -/
structure OldStats where
  matchCount : Nat
  changeCount : Nat
  changedPages : List String
deriving DecidableEq, Repr

/-- One iteration of the `for (const p of successPages)` loop of
`ui-tester.js`: a missing baseline or a thrown comparison only logs a
console message and leaves every counter unchanged. -/
def compareStep (env : String → Tester.CompareEnv) (s : OldStats)
    (p : Tester.PageInfo) : OldStats :=
  match env p.url with
  | .err _ => s
  | .missing => s
  | .imgs imgA imgB =>
    match UITT.pixelmatch imgA.data imgB.data imgA.width imgA.height with
    | none => s
    | some diffPixels =>
      if 100 * diffPixels < imgA.width * imgA.height then
        { s with matchCount := s.matchCount + 1 }
      else
        { s with changeCount := s.changeCount + 1,
                 changedPages := s.changedPages ++ [p.url] }

/-- The whole `ui-tester.js` comparison loop. -/
def runCompare (env : String → Tester.CompareEnv)
    (pages : List Tester.PageInfo) : OldStats :=
  pages.foldl (compareStep env) ⟨0, 0, []⟩

/-- The report written by `ui-tester.js` `compareMenu`: total pages
compared, matched, changed, and the changed-page list — there is no
error field. -/
structure OldReport where
  totalCompared : Nat
  matched : Nat
  changed : Nat
  changedPages : List String
deriving DecidableEq, Repr

/-- Build the `ui-tester.js` report from the loop result. -/
def buildReport (env : String → Tester.CompareEnv)
    (baselinePages : List Tester.PageInfo) : OldReport :=
  let sp := Tester.successPages baselinePages
  let s := runCompare env sp
  ⟨sp.length, s.matchCount, s.changeCount, s.changedPages⟩

end TesterOld

/-! ### JSON model for the `pages.json` round trip

`crawlAndScreenshot` writes `JSON.stringify(pages, null, 2)` and
`compareMenu` reads it back with `JSON.parse`.  The model works at the
JSON value level; that the external JSON text serialization round-trips
values made of strings, numbers, `null`, arrays and objects is assumed. -/

inductive JValue where
  | jnull
  | jstr (s : String)
  | jnum (n : Nat)
  | jarr (xs : List JValue)
  | jobj (fields : List (String × JValue))

namespace Tester

/-- An optional string as a JSON value (`null` for `None`). -/
def optJson : Option String → JValue
  | none => .jnull
  | some s => .jstr s

/-- The JSON object `crawlAndScreenshot` writes for one page, fields in
the order of the object literal. -/
def pageToJson (p : PageInfo) : JValue :=
  .jobj [("url", .jstr p.url), ("type", .jstr p.type),
         ("pathDepth", .jnum p.pathDepth), ("path", .jstr p.path),
         ("status", .jstr p.status), ("title", optJson p.title),
         ("screenshotPath", optJson p.screenshotPath),
         ("errorMessage", optJson p.errorMessage),
         ("canonical", .jstr p.canonical)]

/-- `JSON.stringify(pages, null, 2)` at the value level. -/
def savePages (pages : List PageInfo) : JValue :=
  .jarr (pages.map pageToJson)

/-- Look a key up in a JSON object field list. -/
def jLookup (fields : List (String × JValue)) (k : String) : Option JValue :=
  (fields.find? fun f => f.1 == k).map (·.2)

/-- Read a mandatory string field. -/
def jStr : Option JValue → Option String
  | some (.jstr s) => some s
  | _ => none

/-- Read a nullable string field. -/
def jOptStr : Option JValue → Option (Option String)
  | some .jnull => some none
  | some (.jstr s) => some (some s)
  | _ => none

/-- Read a number field. -/
def jNat : Option JValue → Option Nat
  | some (.jnum n) => some n
  | _ => none

/-- Reconstruct one page record from its JSON object. -/
def pageFromJson : JValue → Option PageInfo
  | .jobj fields => do
    let url ← jStr (jLookup fields "url")
    let type ← jStr (jLookup fields "type")
    let pathDepth ← jNat (jLookup fields "pathDepth")
    let path ← jStr (jLookup fields "path")
    let status ← jStr (jLookup fields "status")
    let title ← jOptStr (jLookup fields "title")
    let screenshotPath ← jOptStr (jLookup fields "screenshotPath")
    let errorMessage ← jOptStr (jLookup fields "errorMessage")
    let canonical ← jStr (jLookup fields "canonical")
    pure ⟨url, type, pathDepth, path, status, title, screenshotPath,
          errorMessage, canonical⟩
  | _ => none

/-- `JSON.parse` of a saved `pages.json` at the value level. -/
def loadPages : JValue → Option (List PageInfo)
  | .jarr xs => xs.mapM pageFromJson
  | _ => none

end Tester


/-! ### `Reporter`: the Website Page Reporter script (first script of
`part_000`) -/

namespace Reporter

/-- `createSafeFileName(url)` of the Reporter: hostname plus pathname with
every non-alphanumeric character replaced by `_`, runs collapsed, one
leading/trailing `_` trimmed, capped at 100 characters, empty result
replaced by `"homepage"`; `"invalid_url"` when the URL does not parse. -/
def createSafeFileName (url : String) : String :=
  match UITT.parseURL url with
  | none => "invalid_url"
  | some r =>
    let raw := (UITT.urlHostname r).data ++ r.pathname.data
    let cleaned := UITT.trimUnderscores (UITT.collapseUnderscores
      (UITT.sanitizeChars Char.isAlphanum raw))
    let capped := cleaned.take 100
    if capped = [] then "homepage" else ⟨capped⟩

/-- Remove one trailing slash (model of `pathname.replace(/\/$/, '')`). -/
def stripTrailingSlash (l : List Char) : List Char :=
  if l.getLast? = some '/' then l.dropLast else l

/-- `categorizePage(url, hostname)`: `"main"` when the path has at most one
non-empty segment (or the URL does not parse), `"sub"` otherwise. -/
def categorizePage (url : String) : String :=
  match UITT.parseURL url with
  | none => "main"
  | some r =>
    let segs := (UITT.splitOnChar '/'
      (stripTrailingSlash r.pathname.data)).filter (· ≠ [])
    if segs.length ≤ 1 then "main" else "sub"

/-- Path depth as computed inside `generatePageReport` (trailing slash
stripped, empty segments discarded). -/
def pageDepth (url : String) : Nat :=
  match UITT.parseURL url with
  | none => 0
  | some r =>
    ((UITT.splitOnChar '/'
      (stripTrailingSlash r.pathname.data)).filter (· ≠ [])).length

/-- One `pageDetails` entry of `generatePageReport` (the screenshot path,
present only when screenshots are enabled and succeed, is not modelled;
no claim depends on it). -/
structure RPage where
  url : String
  type : String
  pathDepth : Nat
  path : String
  status : String
  title : Option String
  canonical : Option String
  errorMessage : Option String
deriving DecidableEq, Repr

/-- Outcome of the browser for one URL in the Reporter crawl: `page.goto`
plus the single `page.evaluate` that extracts title, canonical and links. -/
inductive PageOutcome where
  | fail (msg : String)
  | ok (title : String) (canonical : Option String) (links : List String)

/-- State of the `generatePageReport` loop. -/
structure ReportState where
  visited : List String
  toVisit : List String
  pageDetails : List RPage
deriving Repr

/-- The link filter of `generatePageReport`: keep links on the crawl
hostname (`new URL(link).hostname === hostname`, parse failure excluded),
drop links ending in `#`, drop links already visited.  The queue is not
consulted, so a link already pending passes the filter. -/
def keepLink (hostname : String) (visited : List String) (l : String) : Bool :=
  (match UITT.parseURL l with
   | some r => UITT.urlHostname r == hostname
   | none => false)
  && !UITT.strEndsWithHash l
  && !visited.contains l

/-- One iteration of the `while (toVisit.length > 0)` loop of
`generatePageReport`: dequeue, skip if visited, otherwise record one
`pageDetails` entry (pushed as `pending` and updated in place to
`success`/`error`; modelled as pushing the final record) and append the
filtered links to the queue. -/
def reportStep (env : String → PageOutcome) (hostname : String)
    (s : ReportState) : ReportState :=
  match s.toVisit with
  | [] => s
  | currentUrl :: rest =>
    if currentUrl ∈ s.visited then
      { s with toVisit := rest }
    else
      let visited' := s.visited ++ [currentUrl]
      let base : RPage :=
        { url := currentUrl, type := categorizePage currentUrl,
          pathDepth := pageDepth currentUrl,
          path := (match UITT.parseURL currentUrl with
            | some r => r.pathname
            | none => ""),
          status := "pending", title := none, canonical := none,
          errorMessage := none }
      match env currentUrl with
      | .fail msg =>
        { visited := visited', toVisit := rest,
          pageDetails := s.pageDetails ++
            [{ base with status := "error", errorMessage := some msg }] }
      | .ok title canonical links =>
        let newLinks := links.filter (keepLink hostname visited')
        { visited := visited', toVisit := rest ++ newLinks,
          pageDetails := s.pageDetails ++
            [{ base with status := "success", title := some title,
                         canonical := canonical }] }

/-- Fuelled run of the `generatePageReport` loop. -/
def reportRun (env : String → PageOutcome) (hostname : String) :
    Nat → ReportState → ReportState
  | 0, s => s
  | fuel + 1, s =>
    if s.toVisit = [] then s
    else reportRun env hostname fuel (reportStep env hostname s)

/-- `generatePageReport(startUrl)`: computes the hostname of the start URL
(`new URL(startUrl).hostname`, which throws on an unparseable URL) and
runs the crawl loop from the singleton queue. -/
def generatePageReport (env : String → PageOutcome) (startUrl : String)
    (fuel : Nat) : Option ReportState :=
  (UITT.parseURL startUrl).map fun r =>
    reportRun env (UITT.urlHostname r) fuel ⟨[], [startUrl], []⟩

/-- The record invariant of `generatePageReport`: the visited set has no
duplicates and the recorded `pageDetails` URLs are exactly the visited
URLs in order — so each URL is navigated and recorded at most once even
though the pending queue may hold duplicates. -/
def recordInv (s : ReportState) : Prop :=
  s.visited.Nodup ∧ s.pageDetails.map RPage.url = s.visited


end Reporter


/-! ### Concrete fixtures used by the claim checks -/

/-- A site whose front page links twice to the same subpage. -/
def webClaim1 : String → Reporter.PageOutcome := fun u =>
  if u = "https://ex.com/" then
    Reporter.PageOutcome.ok "Home" none
      ["https://ex.com/a", "https://ex.com/a"]
  else Reporter.PageOutcome.fail "network error"

/-- A success-status baseline page record. -/
def pageFx : Tester.PageInfo :=
  { url := "https://ex.com/p", type := "main", pathDepth := 1, path := "/p",
    status := "success", title := some "Home",
    screenshotPath := some "baseline/ex_com-2024/ex.com_p.png",
    errorMessage := none, canonical := "https://ex.com/p" }

/-- Comparison environment: 1-by-2 images differing in one pixel. -/
def envClaim2 : String → Tester.CompareEnv := fun _ =>
  Tester.CompareEnv.imgs ⟨1, 2, [0, 0]⟩ ⟨1, 2, [0, 7]⟩

/-- Comparison environment: a 2-by-3 baseline against a 3-by-2 capture with
the same pixel data — different dimensions but equal pixel count. -/
def envClaim3 : String → Tester.CompareEnv := fun _ =>
  Tester.CompareEnv.imgs ⟨2, 3, [0, 1, 2, 3, 4, 5]⟩ ⟨3, 2, [0, 1, 2, 3, 4, 5]⟩

/-- Comparison environment: images whose pixel counts genuinely differ. -/
def envClaim3W : String → Tester.CompareEnv := fun _ =>
  Tester.CompareEnv.imgs ⟨1, 1, [0]⟩ ⟨1, 2, [0, 0]⟩

/-- Comparison environment: the baseline screenshot file is missing. -/
def envClaim4 : String → Tester.CompareEnv := fun _ =>
  Tester.CompareEnv.missing

/-! ## Lemmas -/

/-! #### `splitOnFirst` and scanning lemmas -/

theorem splitOnFirst_not_mem {c : Char} :
    ∀ {l : List Char}, c ∉ l → splitOnFirst c l = (l, none)
  | [], h => rfl
  | x :: xs, h => by
    have hx : ¬ x = c := fun he => h (he ▸ List.mem_cons_self x xs)
    have hxs : c ∉ xs := fun hm => h (List.mem_cons_of_mem x hm)
    simp [splitOnFirst, hx, splitOnFirst_not_mem hxs]

theorem splitOnFirst_append_cons {c : Char} :
    ∀ {l₁ l₂ : List Char}, c ∉ l₁ →
    splitOnFirst c (l₁ ++ c :: l₂) = (l₁, some l₂)
  | [], l₂, h => by simp [splitOnFirst]
  | x :: xs, l₂, h => by
    have hx : ¬ x = c := fun he => h (he ▸ List.mem_cons_self x xs)
    have hxs : c ∉ xs := fun hm => h (List.mem_cons_of_mem x hm)
    simp [splitOnFirst, hx, splitOnFirst_append_cons hxs]

theorem splitOnFirst_fst_not_mem (c : Char) :
    ∀ (l : List Char), c ∉ (splitOnFirst c l).1
  | [] => by simp [splitOnFirst]
  | x :: xs => by
    by_cases hx : x = c
    · simp [splitOnFirst, hx]
    · simp [splitOnFirst, hx]
      exact ⟨fun he => hx he.symm, splitOnFirst_fst_not_mem c xs⟩

theorem splitOnFirst_fst_subset (c : Char) :
    ∀ (l : List Char), (splitOnFirst c l).1 ⊆ l
  | [] => by simp [splitOnFirst]
  | x :: xs => by
    by_cases hx : x = c
    · simp [splitOnFirst, hx]
    · intro a ha
      simp only [splitOnFirst, if_neg hx, List.mem_cons] at ha
      rcases ha with rfl | ha
      · exact List.mem_cons_self a xs
      · exact List.mem_cons_of_mem x (splitOnFirst_fst_subset c xs ha)

theorem splitOnFirst_snd_subset {c : Char} :
    ∀ {l rest : List Char}, (splitOnFirst c l).2 = some rest → rest ⊆ l
  | [], rest, h => by simp [splitOnFirst] at h
  | x :: xs, rest, h => by
    by_cases hx : x = c
    · simp only [splitOnFirst, if_pos hx] at h
      cases h
      exact List.subset_cons_self x xs
    · simp only [splitOnFirst, if_neg hx] at h
      exact (splitOnFirst_snd_subset h).trans (List.subset_cons_self x xs)

theorem takeWhile_ne_append {c : Char} :
    ∀ (u v : List Char), (∀ x ∈ u, x ≠ c) → v.head? = some c →
    (u ++ v).takeWhile (· ≠ c) = u ∧
    (u ++ v).dropWhile (· ≠ c) = v
  | [], v, h1, h2 => by
    cases v with
    | nil => simp at h2
    | cons y t =>
      simp only [List.head?_cons, Option.some.injEq] at h2
      subst h2
      simp [List.takeWhile, List.dropWhile]
  | x :: xs, v, h1, h2 => by
    have hx : x ≠ c := h1 x (List.mem_cons_self x xs)
    have ih := takeWhile_ne_append xs v
      (fun y hy => h1 y (List.mem_cons_of_mem x hy)) h2
    refine ⟨?_, ?_⟩
    · rw [List.cons_append, List.takeWhile_cons_of_pos (by simp [hx]), ih.1]
    · rw [List.cons_append, List.dropWhile_cons_of_pos (by simp [hx]), ih.2]

theorem dropWhile_head?_not {p : Char → Bool} :
    ∀ {l : List Char} {a : Char}, (l.dropWhile p).head? = some a → p a = false
  | [], a, h => by simp [List.dropWhile] at h
  | x :: xs, a, h => by
    by_cases hx : p x = true
    · rw [List.dropWhile_cons_of_pos hx] at h
      exact dropWhile_head?_not h
    · rw [List.dropWhile_cons_of_neg hx] at h
      simp only [List.head?_cons, Option.some.injEq] at h
      subst h
      exact Bool.eq_false_iff.mpr hx

theorem singleton_isPrefixOf {c : Char} {l : List Char} :
    [c].isPrefixOf l = true ↔ l.head? = some c := by
  rw [List.isPrefixOf_iff_prefix]
  cases l with
  | nil =>
    simp only [List.head?_nil]
    constructor
    · intro h
      obtain ⟨t, ht⟩ := h
      cases ht
    · intro h
      cases h
  | cons x xs =>
    constructor
    · intro h
      obtain ⟨t, ht⟩ := h
      injection ht with h1 h2
      simp [h1]
    · intro h
      simp only [List.head?_cons, Option.some.injEq] at h
      subst h
      exact ⟨xs, rfl⟩

theorem mem_splitOnCharAux {c : Char} :
    ∀ {l acc seg : List Char}, seg ∈ splitOnCharAux c l acc →
    ∀ x ∈ seg, x ∈ l ∨ x ∈ acc
  | [], acc, seg, h, x, hx => by
    simp only [splitOnCharAux, List.mem_singleton] at h
    subst h
    exact Or.inr (List.mem_reverse.mp hx)
  | y :: ys, acc, seg, h, x, hx => by
    by_cases hy : y = c
    · simp only [splitOnCharAux, if_pos hy, List.mem_cons] at h
      rcases h with rfl | h
      · exact Or.inr (List.mem_reverse.mp hx)
      · rcases mem_splitOnCharAux h x hx with h1 | h1
        · exact Or.inl (List.mem_cons_of_mem y h1)
        · exact absurd h1 (List.not_mem_nil x)
    · simp only [splitOnCharAux, if_neg hy] at h
      rcases mem_splitOnCharAux h x hx with h1 | h1
      · exact Or.inl (List.mem_cons_of_mem y h1)
      · rcases List.mem_cons.mp h1 with rfl | h1
        · exact Or.inl (List.mem_cons_self x ys)
        · exact Or.inr h1

theorem mem_splitOnChar {c : Char} {l seg : List Char}
    (h : seg ∈ splitOnChar c l) : ∀ x ∈ seg, x ∈ l := by
  intro x hx
  rcases mem_splitOnCharAux h x hx with h1 | h1
  · exact h1
  · exact absurd h1 (List.not_mem_nil x)

theorem mem_rdsAux :
    ∀ {segs acc : List (List Char)} {s : List Char}, s ∈ rdsAux segs acc →
    s ∈ acc ∨ s ∈ segs ∨ s = []
  | [], acc, s, h => Or.inl h
  | [seg], acc, s, h => by
    rw [rdsAux] at h
    split_ifs at h
    · rcases List.mem_append.mp h with h1 | h1
      · exact Or.inl h1
      · exact Or.inr (Or.inr (List.mem_singleton.mp h1))
    · rcases List.mem_append.mp h with h1 | h1
      · exact Or.inl ((List.dropLast_sublist acc).subset h1)
      · exact Or.inr (Or.inr (List.mem_singleton.mp h1))
    · rcases List.mem_append.mp h with h1 | h1
      · exact Or.inl h1
      · exact Or.inr (Or.inl h1)
  | seg :: t :: rest, acc, s, h => by
    rw [rdsAux] at h
    split_ifs at h
    · rcases mem_rdsAux h with h1 | h1 | h1
      · exact Or.inl h1
      · exact Or.inr (Or.inl (List.mem_cons_of_mem seg h1))
      · exact Or.inr (Or.inr h1)
    · rcases mem_rdsAux h with h1 | h1 | h1
      · exact Or.inl ((List.dropLast_sublist acc).subset h1)
      · exact Or.inr (Or.inl (List.mem_cons_of_mem seg h1))
      · exact Or.inr (Or.inr h1)
    · rcases mem_rdsAux h with h1 | h1 | h1
      · rcases List.mem_append.mp h1 with h2 | h2
        · exact Or.inl h2
        · exact Or.inr (Or.inl (List.mem_singleton.mp h2 ▸
            List.mem_cons_self seg (t :: rest)))
      · exact Or.inr (Or.inl (List.mem_cons_of_mem seg h1))
      · exact Or.inr (Or.inr h1)

theorem mem_intersperse {α : Type} {sep : α} :
    ∀ {xs : List α} {y : α}, y ∈ xs.intersperse sep → y = sep ∨ y ∈ xs
  | [], y, h => by simp at h
  | [a], y, h => by
    simp only [List.intersperse_singleton, List.mem_singleton] at h
    exact Or.inr (h ▸ List.mem_singleton.mpr rfl)
  | a :: b :: rest, y, h => by
    have heq : (a :: b :: rest).intersperse sep
        = a :: sep :: (b :: rest).intersperse sep := by
      simp [List.intersperse]
    rw [heq] at h
    rcases List.mem_cons.mp h with rfl | h
    · exact Or.inr (List.mem_cons_self y (b :: rest))
    · rcases List.mem_cons.mp h with rfl | h
      · exact Or.inl rfl
      · rcases mem_intersperse h with h1 | h1
        · exact Or.inl h1
        · exact Or.inr (List.mem_cons_of_mem a h1)

theorem removeDotSegs_head (l : List Char) :
    (removeDotSegs l).head? = some '/' := by
  show (if (((rdsAux (splitOnChar '/' l) []).intersperse ['/']).flatten).head?
        = some '/'
      then ((rdsAux (splitOnChar '/' l) []).intersperse ['/']).flatten
      else '/' :: ((rdsAux (splitOnChar '/' l) []).intersperse ['/']).flatten).head?
    = some '/'
  split_ifs with h
  · exact h
  · rfl

theorem mem_removeDotSegs {l : List Char} {x : Char}
    (h : x ∈ removeDotSegs l) : x = '/' ∨ x ∈ l := by
  have hj : ∀ y ∈ ((rdsAux (splitOnChar '/' l) []).intersperse ['/']).flatten,
      y = '/' ∨ y ∈ l := by
    intro y hy
    rw [List.mem_flatten] at hy
    obtain ⟨s, hs, hys⟩ := hy
    rcases mem_intersperse hs with rfl | hsegs
    · exact Or.inl (List.mem_singleton.mp hys)
    · rcases mem_rdsAux hsegs with h1 | h1 | h1
      · exact absurd h1 (List.not_mem_nil s)
      · exact Or.inr (mem_splitOnChar h1 y hys)
      · subst h1
        exact absurd hys (List.not_mem_nil y)
  have h' : x ∈ (if (((rdsAux (splitOnChar '/' l) []).intersperse ['/']).flatten).head?
        = some '/'
      then ((rdsAux (splitOnChar '/' l) []).intersperse ['/']).flatten
      else '/' :: ((rdsAux (splitOnChar '/' l) []).intersperse ['/']).flatten) := h
  split_ifs at h' with hc
  · exact hj x h'
  · rcases List.mem_cons.mp h' with rfl | h'
    · exact Or.inl rfl
    · exact hj x h'

theorem mem_dirOf {l : List Char} {x : Char} (h : x ∈ dirOf l) : x ∈ l := by
  unfold dirOf at h
  rw [List.mem_reverse] at h
  exact List.mem_reverse.mp ((List.dropWhile_sublist _).subset h)

theorem schemeChar_ne (c : Char) (h : schemeChar c = true) :
    c ≠ ':' ∧ c ≠ '/' ∧ c ≠ '?' ∧ c ≠ '#' := by
  refine ⟨?_, ?_, ?_, ?_⟩ <;> rintro rfl <;> simp [schemeChar, Char.isAlpha,
    Char.isUpper, Char.isLower] at h

/-! #### Parser output well-formedness -/

theorem parseCore_good {cs : List Char} {r : URLRec} (hno : '#' ∉ cs)
    (h : parseCore cs = some r) : goodURL r ∧ r.hash = none := by
  unfold parseCore at h
  split at h
  · exact Option.noConfusion h
  · rename_i schemeCs rest hsc
    by_cases h1 : schemeCs = []
    · rw [if_pos h1] at h
      exact Option.noConfusion h
    rw [if_neg h1] at h
    by_cases hall : schemeCs.all schemeChar = true
    case neg =>
      rw [if_pos hall] at h
      exact Option.noConfusion h
    rw [if_neg (not_not_intro hall)] at h
    split at h
    pick_goal 2
    · exact Option.noConfusion h
    rename_i hostPath
    by_cases h3 : hostPath.takeWhile (· ≠ '/') = []
    · rw [if_pos h3] at h
      exact Option.noConfusion h
    rw [if_neg h3] at h
    rw [Option.some_inj] at h
    subst h
    have hq1_cs : (splitOnFirst '?' cs).1 ⊆ cs := splitOnFirst_fst_subset _ _
    have hq1_noq : '?' ∉ (splitOnFirst '?' cs).1 := splitOnFirst_fst_not_mem _ _
    have hrest_q1 : ('/' :: '/' :: hostPath) ⊆ (splitOnFirst '?' cs).1 := by
      apply splitOnFirst_snd_subset
      rw [hsc]
    have hscheme_q1 : schemeCs ⊆ (splitOnFirst '?' cs).1 := by
      intro a ha
      have : a ∈ (splitOnFirst ':' (splitOnFirst '?' cs).1).1 := by
        rw [hsc]; exact ha
      exact splitOnFirst_fst_subset _ _ this
    have hhp_rest : hostPath ⊆ ('/' :: '/' :: hostPath) := fun a ha =>
      List.mem_cons_of_mem _ (List.mem_cons_of_mem _ ha)
    have hhp_props : ∀ x ∈ hostPath, x ≠ '?' ∧ x ≠ '#' := by
      intro x hx
      have hxq : x ∈ (splitOnFirst '?' cs).1 := hrest_q1 (hhp_rest hx)
      exact ⟨fun he => hq1_noq (he ▸ hxq), fun he => hno (he ▸ hq1_cs hxq)⟩
    refine ⟨⟨?_, ?_, ?_, ?_, ?_, ?_, ?_⟩, rfl⟩
    · exact h1
    · intro c hc
      exact List.all_eq_true.mp hall c hc
    · exact h3
    · intro c hc
      have hc' : c ∈ hostPath := (List.takeWhile_sublist _).subset hc
      refine ⟨?_, (hhp_props c hc').1, (hhp_props c hc').2⟩
      have := List.mem_takeWhile_imp hc
      exact of_decide_eq_true this
    · by_cases hp : hostPath.dropWhile (· ≠ '/') = []
      · rw [if_pos hp]
        rfl
      · rw [if_neg hp]
        match hh : (hostPath.dropWhile (· ≠ '/')).head? with
        | none =>
          rw [List.head?_eq_none_iff] at hh
          exact absurd hh hp
        | some a =>
          have hd := dropWhile_head?_not hh
          have ha : a = '/' := by
            by_contra hc
            simp [hc] at hd
          rw [ha]
    · intro c hc
      by_cases hp : hostPath.dropWhile (· ≠ '/') = []
      · rw [if_pos hp] at hc
        rcases List.mem_singleton.mp hc with rfl
        exact ⟨by decide, by decide⟩
      · rw [if_neg hp] at hc
        exact hhp_props c ((List.dropWhile_sublist _).subset hc)
    · intro q hq c hc
      simp only [Option.map_eq_some'] at hq
      obtain ⟨qs, hqs, hq2⟩ := hq
      have hcs : c ∈ cs := by
        have : c ∈ qs := by
          rw [← hq2] at hc
          exact hc
        exact splitOnFirst_snd_subset hqs this
      exact fun he => hno (he ▸ hcs)

theorem parseURLChars_good {cs : List Char} {r : URLRec}
    (h : parseURLChars cs = some r) : goodURL r := by
  unfold parseURLChars at h
  split at h
  · exact absurd h (by simp)
  · rename_i r0 hr0
    rw [Option.some_inj] at h
    subst h
    have hg := parseCore_good (splitOnFirst_fst_not_mem '#' cs) hr0
    obtain ⟨⟨g1, g2, g3, g4, g5, g6, g7⟩, _⟩ := hg
    exact ⟨g1, g2, g3, g4, g5, g6, fun q hq => g7 q hq⟩

theorem relPath_props {bh : List Char} (hno : '#' ∉ bh) :
    ∀ c ∈ relPath bh, c ≠ '?' ∧ c ≠ '#' := by
  intro c hc
  have hc' : c ∈ (splitOnFirst '?' bh).1 := hc
  constructor
  · rintro rfl
    exact splitOnFirst_fst_not_mem '?' bh hc'
  · rintro rfl
    exact hno (splitOnFirst_fst_subset '?' bh hc')

theorem relQuery_no_hash {bh : List Char} (hno : '#' ∉ bh) {qs : List Char}
    (hq : relQuery bh = some qs) : ∀ c ∈ qs, c ≠ '#' := by
  intro c hc he
  exact hno (he ▸ splitOnFirst_snd_subset hq hc)

theorem resolveCore_good {bh base : List Char} {r : URLRec}
    (hno : '#' ∉ bh) (h : resolveCore bh base = some r) :
    goodURL r ∧ r.hash = none := by
  unfold resolveCore at h
  split at h
  · rename_i r0 hr0
    rw [Option.some_inj] at h
    subst h
    exact parseCore_good hno hr0
  · split at h
    · exact Option.noConfusion h
    · rename_i b hb
      obtain ⟨g1, g2, g3, g4, g5, g6, g7⟩ := parseURLChars_good hb
      by_cases hp1 : relPath bh = []
      · rw [if_pos hp1, Option.some_inj] at h
        subst h
        refine ⟨⟨g1, g2, g3, g4, g5, g6, ?_⟩, rfl⟩
        intro q hq c hc
        cases hrq : relQuery bh with
        | none =>
          rw [hrq] at hq
          exact g7 q hq c hc
        | some qs =>
          rw [hrq, Option.some_inj] at hq
          subst hq
          exact relQuery_no_hash hno hrq c hc
      · rw [if_neg hp1] at h
        by_cases hp2 : (relPath bh).head? = some '/'
        · rw [if_pos hp2, Option.some_inj] at h
          subst h
          refine ⟨⟨g1, g2, g3, g4, removeDotSegs_head _, ?_, ?_⟩, rfl⟩
          · intro c hc
            rcases mem_removeDotSegs hc with rfl | hc2
            · exact ⟨by decide, by decide⟩
            · exact relPath_props hno c hc2
          · intro q hq c hc
            simp only [Option.map_eq_some'] at hq
            obtain ⟨qs, hqs, hq2⟩ := hq
            subst hq2
            exact relQuery_no_hash hno hqs c hc
        · rw [if_neg hp2, Option.some_inj] at h
          subst h
          refine ⟨⟨g1, g2, g3, g4, removeDotSegs_head _, ?_, ?_⟩, rfl⟩
          · intro c hc
            rcases mem_removeDotSegs hc with rfl | hc2
            · exact ⟨by decide, by decide⟩
            · rcases List.mem_append.mp hc2 with hc3 | hc3
              · exact g6 c (mem_dirOf hc3)
              · exact relPath_props hno c hc3
          · intro q hq c hc
            simp only [Option.map_eq_some'] at hq
            obtain ⟨qs, hqs, hq2⟩ := hq
            subst hq2
            exact relQuery_no_hash hno hqs c hc

theorem resolveChars_good {url base : List Char} {r : URLRec}
    (h : resolveChars url base = some r) :
    goodURL r ∧ r.hash = (fragPart url).map (fun l => (⟨l⟩ : String)) := by
  unfold resolveChars at h
  split at h
  · exact Option.noConfusion h
  · rename_i r0 hr0
    rw [Option.some_inj] at h
    subst h
    obtain ⟨⟨g1, g2, g3, g4, g5, g6, g7⟩, _⟩ :=
      resolveCore_good (splitOnFirst_fst_not_mem '#' url) hr0
    exact ⟨⟨g1, g2, g3, g4, g5, g6, fun q hq => g7 q hq⟩, rfl⟩

/-! #### Serialization inverts parsing on well-formed records -/

/-! #### Serialization inverts parsing on well-formed records -/

theorem serializeURL_data_none (r : URLRec) (hh : r.hash = none)
    (hs : r.search = none) :
    (serializeURL r).data = r.scheme.data ++ ':' :: '/' :: '/' ::
      (r.host.data ++ r.pathname.data) := by
  simp [serializeURL, hs, hh, String.data_append]

theorem serializeURL_data_some (r : URLRec) (hh : r.hash = none)
    {q : String} (hs : r.search = some q) :
    (serializeURL r).data = (r.scheme.data ++ ':' :: '/' :: '/' ::
      (r.host.data ++ r.pathname.data)) ++ '?' :: q.data := by
  simp [serializeURL, hs, hh, String.data_append]

theorem parse_serializeURL {r : URLRec} (hg : goodURL r) (hh : r.hash = none) :
    parseURLChars (serializeURL r).data = some r := by
  obtain ⟨sch, host, pa, se, ha⟩ := r
  obtain ⟨g1, g2, g3, g4, g5, g6, g7⟩ := hg
  have hh' : ha = none := hh
  subst hh'
  have hsch : ∀ c ∈ sch.data, c ≠ ':' ∧ c ≠ '/' ∧ c ≠ '?' ∧ c ≠ '#' :=
    fun c hc => schemeChar_ne c (g2 c hc)
  have hpne : pa.data ≠ [] := by
    intro he
    have g5' : pa.data.head? = some '/' := g5
    rw [he] at g5'
    exact Option.noConfusion g5'
  have hcore_noq : '?' ∉ sch.data ++ ':' :: '/' :: '/' ::
      (host.data ++ pa.data) := by
    intro hmem
    rcases List.mem_append.mp hmem with hm | hm
    · exact (hsch _ hm).2.2.1 rfl
    · rcases List.mem_cons.mp hm with hm | hm
      · exact absurd hm.symm (by decide)
      · rcases List.mem_cons.mp hm with hm | hm
        · exact absurd hm.symm (by decide)
        · rcases List.mem_cons.mp hm with hm | hm
          · exact absurd hm.symm (by decide)
          · rcases List.mem_append.mp hm with hm | hm
            · exact (g4 _ hm).2.1 rfl
            · exact (g6 _ hm).1 rfl
  have hcore_noh : '#' ∉ sch.data ++ ':' :: '/' :: '/' ::
      (host.data ++ pa.data) := by
    intro hmem
    rcases List.mem_append.mp hmem with hm | hm
    · exact (hsch _ hm).2.2.2 rfl
    · rcases List.mem_cons.mp hm with hm | hm
      · exact absurd hm.symm (by decide)
      · rcases List.mem_cons.mp hm with hm | hm
        · exact absurd hm.symm (by decide)
        · rcases List.mem_cons.mp hm with hm | hm
          · exact absurd hm.symm (by decide)
          · rcases List.mem_append.mp hm with hm | hm
            · exact (g4 _ hm).2.2 rfl
            · exact (g6 _ hm).2 rfl
  have hsplit_colon : splitOnFirst ':' (sch.data ++ ':' :: '/' :: '/' ::
      (host.data ++ pa.data)) =
      (sch.data, some ('/' :: '/' :: (host.data ++ pa.data))) :=
    splitOnFirst_append_cons (fun hm => (hsch _ hm).1 rfl)
  have hsplit_host := takeWhile_ne_append (c := '/') host.data pa.data
    (fun x hx => (g4 x hx).1) g5
  have hcore : parseCore (sch.data ++ ':' :: '/' :: '/' ::
      (host.data ++ pa.data)) = some ⟨sch, host, pa, none, none⟩ := by
    unfold parseCore
    simp only [splitOnFirst_not_mem hcore_noq, hsplit_colon, hsplit_host.1,
      hsplit_host.2, if_neg g1, if_neg (not_not_intro (List.all_eq_true.mpr g2)),
      if_neg g3, if_neg hpne, Option.map_none']
  cases se with
  | none =>
    have hS : (serializeURL ⟨sch, host, pa, none, none⟩).data
        = sch.data ++ ':' :: '/' :: '/' :: (host.data ++ pa.data) :=
      serializeURL_data_none _ rfl rfl
    have hnoh : '#' ∉ (serializeURL (⟨sch, host, pa, none, none⟩ : URLRec)).data := by
      rw [hS]
      exact hcore_noh
    have hbh : beforeHash (serializeURL (⟨sch, host, pa, none, none⟩ : URLRec)).data
        = (serializeURL (⟨sch, host, pa, none, none⟩ : URLRec)).data := by
      unfold beforeHash
      rw [splitOnFirst_not_mem hnoh]
    have hfp : fragPart (serializeURL (⟨sch, host, pa, none, none⟩ : URLRec)).data
        = none := by
      unfold fragPart
      rw [splitOnFirst_not_mem hnoh]
    unfold parseURLChars
    rw [hbh, hfp, hS, hcore]
    rfl
  | some q =>
    have hS : (serializeURL ⟨sch, host, pa, some q, none⟩).data
        = (sch.data ++ ':' :: '/' :: '/' :: (host.data ++ pa.data)) ++ '?' :: q.data :=
      serializeURL_data_some _ rfl rfl
    have hq_noh : ∀ c ∈ q.data, c ≠ '#' := g7 q rfl
    have hnoh : '#' ∉ (serializeURL (⟨sch, host, pa, some q, none⟩ : URLRec)).data := by
      rw [hS]
      intro hmem
      rcases List.mem_append.mp hmem with hm | hm
      · exact hcore_noh hm
      · rcases List.mem_cons.mp hm with hm | hm
        · exact absurd hm.symm (by decide)
        · exact hq_noh _ hm rfl
    have hbh : beforeHash (serializeURL (⟨sch, host, pa, some q, none⟩ : URLRec)).data
        = (serializeURL (⟨sch, host, pa, some q, none⟩ : URLRec)).data := by
      unfold beforeHash
      rw [splitOnFirst_not_mem hnoh]
    have hfp : fragPart (serializeURL (⟨sch, host, pa, some q, none⟩ : URLRec)).data
        = none := by
      unfold fragPart
      rw [splitOnFirst_not_mem hnoh]
    have hsplit_q : splitOnFirst '?'
        (serializeURL (⟨sch, host, pa, some q, none⟩ : URLRec)).data =
        (sch.data ++ ':' :: '/' :: '/' :: (host.data ++ pa.data), some q.data) := by
      rw [hS]
      exact splitOnFirst_append_cons hcore_noq
    unfold parseURLChars
    rw [hbh, hfp]
    unfold parseCore
    simp only [hsplit_q, hsplit_colon, hsplit_host.1, hsplit_host.2,
      if_neg g1, if_neg (not_not_intro (List.all_eq_true.mpr g2)),
      if_neg g3, if_neg hpne, Option.map_some', Option.map_none']

theorem core_not_mem {sch host pa : List Char} {x : Char}
    (h1 : ∀ c ∈ sch, c ≠ x) (hx1 : x ≠ ':') (hx2 : x ≠ '/')
    (h3 : ∀ c ∈ host, c ≠ x) (h4 : ∀ c ∈ pa, c ≠ x) :
    x ∉ sch ++ ':' :: '/' :: '/' :: (host ++ pa) := by
  intro hm
  rcases List.mem_append.mp hm with h | h
  · exact h1 _ h rfl
  · rcases List.mem_cons.mp h with h | h
    · exact hx1 h
    · rcases List.mem_cons.mp h with h | h
      · exact hx2 h
      · rcases List.mem_cons.mp h with h | h
        · exact hx2 h
        · rcases List.mem_append.mp h with h | h
          · exact h3 _ h rfl
          · exact h4 _ h rfl

theorem serialize_no_hash {r : URLRec} (hg : goodURL r) (hh : r.hash = none) :
    '#' ∉ (serializeURL r).data := by
  obtain ⟨g1, g2, g3, g4, g5, g6, g7⟩ := hg
  have hsch : ∀ c ∈ r.scheme.data, c ≠ '#' :=
    fun c hc => (schemeChar_ne c (g2 c hc)).2.2.2
  cases hs : r.search with
  | none =>
    rw [serializeURL_data_none r hh hs]
    exact core_not_mem hsch (by decide) (by decide)
      (fun c hc => (g4 c hc).2.2) (fun c hc => (g6 c hc).2)
  | some q =>
    rw [serializeURL_data_some r hh hs]
    intro hm
    rcases List.mem_append.mp hm with h | h
    · exact core_not_mem hsch (by decide) (by decide)
        (fun c hc => (g4 c hc).2.2) (fun c hc => (g6 c hc).2) h
    · rcases List.mem_cons.mp h with h | h
      · exact absurd h (by decide)
      · exact g7 q hs _ h rfl

theorem serialize_head {r : URLRec} (hg : goodURL r) (hh : r.hash = none) :
    ∃ c, (serializeURL r).data.head? = some c ∧ schemeChar c = true := by
  obtain ⟨g1, g2, g3, g4, g5, g6, g7⟩ := hg
  match hd : r.scheme.data with
  | [] => exact absurd hd g1
  | c :: cs =>
    refine ⟨c, ?_, g2 c (hd ▸ List.mem_cons_self c cs)⟩
    cases hs : r.search with
    | none =>
      rw [serializeURL_data_none r hh hs, hd]
      rfl
    | some q =>
      rw [serializeURL_data_some r hh hs, hd]
      rfl

theorem hash_none_update {r : URLRec} (h : r.hash = none) :
    { r with hash := none } = r := by
  obtain ⟨sch, host, pa, se, ha⟩ := r
  have h' : ha = none := h
  subst h'
  rfl

theorem parseCore_of_parseURLChars {cs : List Char} {r : URLRec}
    (hno : '#' ∉ cs) (h : parseURLChars cs = some r) : parseCore cs = some r := by
  have hbh : beforeHash cs = cs := by
    unfold beforeHash
    rw [splitOnFirst_not_mem hno]
  have hfp : fragPart cs = none := by
    unfold fragPart
    rw [splitOnFirst_not_mem hno]
  unfold parseURLChars at h
  rw [hbh, hfp] at h
  split at h
  · exact Option.noConfusion h
  · rename_i r0 hr0
    rw [Option.some_inj] at h
    have hr0h : r0.hash = none := (parseCore_good hno hr0).2
    rw [← h, hr0]
    simp only [Option.map_none']
    rw [hash_none_update hr0h]

theorem strStartsWith_false_of_head {s p : String} {c c' : Char}
    (hs : s.data.head? = some c) (hp : p.data.head? = some c') (hne : c' ≠ c) :
    strStartsWith s p = false := by
  unfold strStartsWith
  rw [Bool.eq_false_iff]
  intro habs
  rw [List.isPrefixOf_iff_prefix] at habs
  obtain ⟨t, ht⟩ := habs
  cases hpd : p.data with
  | nil => rw [hpd] at hp; exact Option.noConfusion hp
  | cons a as =>
    rw [hpd] at hp ht
    simp only [List.head?_cons, Option.some.injEq] at hp
    subst hp
    cases hsd : s.data with
    | nil =>
      rw [hsd] at ht
      exact List.noConfusion ht
    | cons b bs =>
      rw [hsd] at hs ht
      simp only [List.head?_cons, Option.some.injEq] at hs
      subst hs
      rw [List.cons_append] at ht
      injection ht with h1 h2
      exact hne h1

/-- Resolving a serialized well-formed record parses it back unchanged:
the second `normalizeUrl` pass is the identity on such strings. -/
theorem normalizeUrl_serialized {R : URLRec} (hg : goodURL R) (hh : R.hash = none)
    (hm : strStartsWith (serializeURL R) "mailto:" = false)
    (ht : strStartsWith (serializeURL R) "tel:" = false)
    (hj : strStartsWith (serializeURL R) "javascript:" = false)
    (b2 : String) :
    Tester.normalizeUrl (serializeURL R) b2 = some (serializeURL R) := by
  obtain ⟨c, hc, hcs⟩ := serialize_head hg hh
  have hslash : strStartsWith (serializeURL R) "/" = false :=
    strStartsWith_false_of_head hc rfl
      (fun he => (schemeChar_ne c hcs).2.1 he.symm)
  have hhash : strStartsWith (serializeURL R) "#" = false :=
    strStartsWith_false_of_head hc rfl
      (fun he => (schemeChar_ne c hcs).2.2.2 he.symm)
  have hnoh : '#' ∉ (serializeURL R).data := serialize_no_hash hg hh
  have hparse : parseCore (serializeURL R).data = some R :=
    parseCore_of_parseURLChars hnoh (parse_serializeURL hg hh)
  have hbh : beforeHash (serializeURL R).data = (serializeURL R).data := by
    unfold beforeHash
    rw [splitOnFirst_not_mem hnoh]
  have hfp : fragPart (serializeURL R).data = none := by
    unfold fragPart
    rw [splitOnFirst_not_mem hnoh]
  have hres : resolveChars (serializeURL R).data b2.data = some R := by
    unfold resolveChars resolveCore
    rw [hbh, hfp, hparse]
    simp only [Option.map_none']
    rw [hash_none_update hh]
  unfold Tester.normalizeUrl
  rw [hslash, hhash, hm, ht, hj]
  simp only [Bool.false_eq_true, if_false, Bool.or_self]
  rw [hres]
  show some (serializeURL { R with hash := none }) = some (serializeURL R)
  rw [hash_none_update hh]

theorem strStartsWith_append_self (p x : String) :
    strStartsWith (p ++ x) p = true := by
  unfold strStartsWith
  rw [List.isPrefixOf_iff_prefix, String.data_append]
  exact List.prefix_append p.data x.data

theorem prefix_append_hash {f : List Char} : ∀ {p u : List Char},
    '#' ∉ p → (p <+: u ++ '#' :: f ↔ p <+: u)
  | [], u, hp => by simp
  | c :: p', [], hp => by
    simp only [List.nil_append]
    rw [List.cons_prefix_cons]
    constructor
    · rintro ⟨rfl, -⟩
      exact absurd (List.mem_cons_self _ _) hp
    · intro h
      have := List.prefix_nil.mp h
      exact absurd this (by simp)
  | c :: p', a :: u', hp => by
    simp only [List.cons_append, List.cons_prefix_cons]
    constructor
    · rintro ⟨rfl, h2⟩
      exact ⟨rfl, (prefix_append_hash
        (fun hm => hp (List.mem_cons_of_mem _ hm))).mp h2⟩
    · rintro ⟨rfl, h2⟩
      exact ⟨rfl, (prefix_append_hash
        (fun hm => hp (List.mem_cons_of_mem _ hm))).mpr h2⟩

theorem strStartsWith_hash_append {u f p : String} (hp : '#' ∉ p.data)
    (hud : (u ++ "#" ++ f).data = u.data ++ '#' :: f.data) :
    strStartsWith (u ++ "#" ++ f) p = strStartsWith u p := by
  unfold strStartsWith
  rw [hud]
  rw [Bool.eq_iff_iff, List.isPrefixOf_iff_prefix, List.isPrefixOf_iff_prefix]
  exact prefix_append_hash hp

theorem hash_append_data (u f : String) :
    (u ++ "#" ++ f).data = u.data ++ '#' :: f.data := by
  simp [String.data_append]

theorem mem_sanitizeChars (keep : Char → Bool) (l : List Char) (c : Char)
    (h : c ∈ sanitizeChars keep l) : keep c = true ∨ c = '_' := by
  simp only [sanitizeChars, List.mem_map] at h
  obtain ⟨a, ha, rfl⟩ := h
  by_cases hk : keep a = true
  · simp [hk]
  · simp [hk]

theorem mem_collapseUnderscores :
    ∀ {l : List Char} {c : Char}, c ∈ collapseUnderscores l → c ∈ l
  | [], c, h => by simp [collapseUnderscores] at h
  | [a], c, h => by simpa [collapseUnderscores] using h
  | a :: b :: rest, c, h => by
    rw [collapseUnderscores] at h
    by_cases hab : a = '_' ∧ b = '_'
    · rw [if_pos hab] at h
      exact List.mem_cons_of_mem a (mem_collapseUnderscores h)
    · rw [if_neg hab] at h
      rcases List.mem_cons.mp h with rfl | h
      · exact List.mem_cons_self _ _
      · exact List.mem_cons_of_mem a (mem_collapseUnderscores h)

theorem mem_trimUnderscores {l : List Char} {c : Char}
    (h : c ∈ trimUnderscores l) : c ∈ l := by
  have h' : c ∈ (if (if l.head? = some '_' then l.tail else l).getLast? = some '_'
      then (if l.head? = some '_' then l.tail else l).dropLast
      else (if l.head? = some '_' then l.tail else l)) := h
  split_ifs at h' with h1 h2 h3
  · exact (List.tail_sublist l).subset ((List.dropLast_sublist _).subset h')
  · exact (List.tail_sublist l).subset h'
  · exact (List.dropLast_sublist _).subset h'
  · exact h'

namespace Tester

theorem offerLinks_inv (domain currentUrl : String) (visited : List String) :
    ∀ (links queue : List String), queue.Nodup →
    (∀ u ∈ queue, u ∉ visited) →
    (offerLinks domain currentUrl visited queue links).Nodup ∧
    (∀ u ∈ offerLinks domain currentUrl visited queue links, u ∉ visited)
  | [], queue, hnd, hdis => by
    simpa [offerLinks] using ⟨hnd, hdis⟩
  | link :: rest, queue, hnd, hdis => by
    rw [offerLinks]
    cases hno : normalizeUrl link currentUrl with
    | none => exact offerLinks_inv domain currentUrl visited rest queue hnd hdis
    | some nu =>
      by_cases hc : getDomain nu = some domain ∧ nu ∉ visited ∧ nu ∉ queue
      · simp only [if_pos hc]
        refine offerLinks_inv domain currentUrl visited rest (queue ++ [nu]) ?_ ?_
        · simp [List.nodup_append, hnd, hc.2.2]
        · intro u hu
          rcases List.mem_append.mp hu with h | h
          · exact hdis u h
          · simp only [List.mem_singleton] at h
            exact h ▸ hc.2.1
      · simp only [if_neg hc]
        exact offerLinks_inv domain currentUrl visited rest queue hnd hdis

theorem crawlStep_inv (env : String → FetchOutcome)
    (domain startUrl folder : String) (s : CrawlState)
    (h : frontierInv s) :
    frontierInv (crawlStep env domain startUrl folder s) := by
  obtain ⟨hq, hdis, hv⟩ := h
  match hs : s.urlsToVisit with
  | [] =>
    simp only [crawlStep, hs]
    exact ⟨hq, hdis, hv⟩
  | currentUrl :: rest =>
    rw [hs] at hq hdis
    have hqr : rest.Nodup := hq.of_cons
    have hcur_rest : currentUrl ∉ rest := (List.nodup_cons.mp hq).1
    have hdis_rest : ∀ u ∈ rest, u ∉ s.visitedUrls :=
      fun u hu => hdis u (List.mem_cons_of_mem _ hu)
    by_cases hvis : currentUrl ∈ s.visitedUrls
    · simp only [crawlStep, hs, if_pos hvis]
      exact ⟨hqr, hdis_rest, hv⟩
    · have hv' : (s.visitedUrls ++ [currentUrl]).Nodup := by
        simp [List.nodup_append, hv, hvis]
      have hdis' : ∀ u ∈ rest, u ∉ s.visitedUrls ++ [currentUrl] := by
        intro u hu hmem
        rcases List.mem_append.mp hmem with h | h
        · exact hdis_rest u hu h
        · simp only [List.mem_singleton] at h
          exact hcur_rest (h ▸ hu)
      simp only [crawlStep, hs, if_neg hvis]
      cases env currentUrl with
      | fail msg => exact ⟨hqr, hdis', hv'⟩
      | okNoLinks t c msg => exact ⟨hqr, hdis', hv'⟩
      | ok t c links =>
        have := offerLinks_inv domain currentUrl (s.visitedUrls ++ [currentUrl])
          links rest hqr hdis'
        exact ⟨this.1, this.2, hv'⟩

theorem crawlRun_inv (env : String → FetchOutcome)
    (domain startUrl folder : String) :
    ∀ (fuel : Nat) (s : CrawlState), frontierInv s →
    frontierInv (crawlRun env domain startUrl folder fuel s)
  | 0, s, h => h
  | fuel + 1, s, h => by
    rw [crawlRun]
    split
    · exact h
    · exact crawlRun_inv env domain startUrl folder fuel _
        (crawlStep_inv env domain startUrl folder s h)

theorem compareStep_classSum (env : String → CompareEnv) (s : CompareStats)
    (p : PageInfo) :
    (compareStep env s p).matchCount + (compareStep env s p).changeCount
      + (compareStep env s p).errorCount
    = s.matchCount + s.changeCount + s.errorCount + 1 := by
  cases henv : env p.url with
  | err msg => simp [compareStep, henv]; omega
  | missing => simp [compareStep, henv]; omega
  | imgs a b =>
    cases hpm : UITT.pixelmatch a.data b.data a.width a.height with
    | none => simp [compareStep, henv, hpm]; omega
    | some d =>
      by_cases hc : 100 * d < a.width * a.height <;>
        simp [compareStep, henv, hpm, hc] <;> omega

theorem foldl_classSum (env : String → CompareEnv) :
    ∀ (l : List PageInfo) (s : CompareStats),
    (l.foldl (compareStep env) s).matchCount
      + (l.foldl (compareStep env) s).changeCount
      + (l.foldl (compareStep env) s).errorCount
    = s.matchCount + s.changeCount + s.errorCount + l.length
  | [], s => by simp
  | p :: l, s => by
    have h1 := compareStep_classSum env s p
    have h2 := foldl_classSum env l (compareStep env s p)
    simp only [List.foldl_cons, List.length_cons]
    omega

theorem compareStep_totals (env : String → CompareEnv) (s : CompareStats)
    (p : PageInfo) :
    (compareStep env s p).totalDiffPixels
      = s.totalDiffPixels + (match comparedOutcome env p with
          | some dp => dp.1
          | none => 0) ∧
    (compareStep env s p).totalPixelsCompared
      = s.totalPixelsCompared + (match comparedOutcome env p with
          | some dp => dp.2
          | none => 0) ∧
    (compareStep env s p).successfulComparisons
      = s.successfulComparisons + (match comparedOutcome env p with
          | some _ => 1
          | none => 0) := by
  cases henv : env p.url with
  | err msg => simp [compareStep, comparedOutcome, henv]
  | missing => simp [compareStep, comparedOutcome, henv]
  | imgs a b =>
    cases hpm : UITT.pixelmatch a.data b.data a.width a.height with
    | none => simp [compareStep, comparedOutcome, henv, hpm]
    | some d =>
      by_cases hc : 100 * d < a.width * a.height <;>
        simp [compareStep, comparedOutcome, henv, hpm, hc]

theorem foldl_totals (env : String → CompareEnv) :
    ∀ (l : List PageInfo) (s : CompareStats),
    (l.foldl (compareStep env) s).totalDiffPixels
      = s.totalDiffPixels + (((l.filterMap (comparedOutcome env)).map Prod.fst).sum) ∧
    (l.foldl (compareStep env) s).totalPixelsCompared
      = s.totalPixelsCompared + (((l.filterMap (comparedOutcome env)).map Prod.snd).sum) ∧
    (l.foldl (compareStep env) s).successfulComparisons
      = s.successfulComparisons + (l.filterMap (comparedOutcome env)).length
  | [], s => by simp
  | p :: l, s => by
    have h1 := compareStep_totals env s p
    have h2 := foldl_totals env l (compareStep env s p)
    simp only [List.foldl_cons]
    cases hco : comparedOutcome env p with
    | none =>
      simp only [hco] at h1
      simp [List.filterMap_cons, hco, h2.1, h2.2.1, h2.2.2, h1.1, h1.2.1, h1.2.2]
    | some dp =>
      simp only [hco] at h1
      simp only [List.filterMap_cons, hco, List.map_cons, List.sum_cons,
        List.length_cons, h2.1, h2.2.1, h2.2.2, h1.1, h1.2.1, h1.2.2]
      omega

theorem compareStep_errs (env : String → CompareEnv) (s : CompareStats)
    (p : PageInfo) :
    ((compareStep env s p).errorCount = (compareStep env s p).errorPages.length
        ↔ s.errorCount = s.errorPages.length) ∧
    (∀ x ∈ s.errorPages, x ∈ (compareStep env s p).errorPages) ∧
    (env p.url = .missing →
      (p.url, "Baseline screenshot not found") ∈ (compareStep env s p).errorPages) := by
  cases henv : env p.url with
  | err msg => simp [compareStep, henv]; exact fun a b h => Or.inl h
  | missing => simp [compareStep, henv]; exact fun a b h => Or.inl h
  | imgs a b =>
    cases hpm : UITT.pixelmatch a.data b.data a.width a.height with
    | none => simp [compareStep, henv, hpm]; exact fun a b h => Or.inl h
    | some d =>
      by_cases hc : 100 * d < a.width * a.height <;>
        simp [compareStep, henv, hpm, hc]

theorem foldl_errs (env : String → CompareEnv) :
    ∀ (l : List PageInfo) (s : CompareStats),
    ((l.foldl (compareStep env) s).errorCount
        = (l.foldl (compareStep env) s).errorPages.length
      ↔ s.errorCount = s.errorPages.length) ∧
    (∀ x ∈ s.errorPages, x ∈ (l.foldl (compareStep env) s).errorPages) ∧
    (∀ p ∈ l, env p.url = .missing →
      (p.url, "Baseline screenshot not found")
        ∈ (l.foldl (compareStep env) s).errorPages)
  | [], s => by simp
  | p :: l, s => by
    have h1 := compareStep_errs env s p
    have h2 := foldl_errs env l (compareStep env s p)
    refine ⟨h2.1.trans h1.1, fun x hx => h2.2.1 x (h1.2.1 x hx), ?_⟩
    intro q hq hmiss
    rcases List.mem_cons.mp hq with rfl | hql
    · exact h2.2.1 _ (h1.2.2 hmiss)
    · exact h2.2.2 q hql hmiss

theorem pageFromJson_pageToJson (p : PageInfo) :
    pageFromJson (pageToJson p) = some p := by
  cases p with
  | mk url type pathDepth path status title screenshotPath errorMessage canonical =>
    cases title <;> cases screenshotPath <;> cases errorMessage <;> rfl

theorem mapM_pageFromJson (pages : List PageInfo) :
    (pages.map pageToJson).mapM pageFromJson = some pages := by
  induction pages with
  | nil => rfl
  | cons p ps ih =>
    simp only [List.map_cons, List.mapM_cons, pageFromJson_pageToJson, ih,
      Option.bind_eq_bind, Option.some_bind]
    rfl

end Tester

namespace Reporter

theorem reportStep_inv (env : String → PageOutcome) (hostname : String)
    (s : ReportState) (h : recordInv s) :
    recordInv (reportStep env hostname s) := by
  obtain ⟨hv, hmap⟩ := h
  match hs : s.toVisit with
  | [] =>
    simp only [reportStep, hs]
    exact ⟨hv, hmap⟩
  | currentUrl :: rest =>
    by_cases hvis : currentUrl ∈ s.visited
    · simp only [reportStep, hs, if_pos hvis]
      exact ⟨hv, hmap⟩
    · have hv' : (s.visited ++ [currentUrl]).Nodup := by
        simp [List.nodup_append, hv, hvis]
      simp only [reportStep, hs, if_neg hvis]
      cases env currentUrl with
      | fail msg => exact ⟨hv', by simp [hmap]⟩
      | ok title canonical links => exact ⟨hv', by simp [hmap]⟩

theorem reportRun_inv (env : String → PageOutcome) (hostname : String) :
    ∀ (fuel : Nat) (s : ReportState), recordInv s →
    recordInv (reportRun env hostname fuel s)
  | 0, s, h => h
  | fuel + 1, s, h => by
    rw [reportRun]
    split
    · exact h
    · exact reportRun_inv env hostname fuel _ (reportStep_inv env hostname s h)

end Reporter

theorem mem_processed {keep : Char → Bool} {raw : List Char} {c : Char}
    (h : c ∈ trimUnderscores (collapseUnderscores (sanitizeChars keep raw))) :
    keep c = true ∨ c = '_' :=
  mem_sanitizeChars keep raw c (mem_collapseUnderscores (mem_trimUnderscores h))

theorem head?_mem {l : List Char} {c : Char} (h : l.head? = some c) : c ∈ l := by
  cases l with
  | nil => exact Option.noConfusion h
  | cons a t =>
    simp only [List.head?_cons, Option.some.injEq] at h
    exact h ▸ List.mem_cons_self a t

theorem strStartsWith_slash {s : String} :
    strStartsWith s "/" = true ↔ s.data.head? = some '/' := by
  unfold strStartsWith
  have hd : ("/" : String).data = ['/'] := rfl
  rw [hd]
  exact singleton_isPrefixOf

theorem strStartsWith_hashchar {s : String} :
    strStartsWith s "#" = true ↔ s.data.head? = some '#' := by
  unfold strStartsWith
  have hd : ("#" : String).data = ['#'] := rfl
  rw [hd]
  exact singleton_isPrefixOf

theorem append_head {p x : String} {c : Char} (hp : p.data.head? = some c) :
    (p ++ x).data.head? = some c := by
  rw [String.data_append]
  cases hd : p.data with
  | nil => rw [hd] at hp; exact Option.noConfusion hp
  | cons a t =>
    rw [hd] at hp
    simp only [List.head?_cons, Option.some.injEq] at hp
    subst hp
    rfl

/-! ## Claims -/

/-- Claim C1 counterexample: the claim says a URL is never added to the
pending queue when it is already pending, but `generatePageReport`
filters discovered links only against the visited set.  Crawling a page
that links twice to the same URL enqueues it twice: after one loop
iteration the pending queue is `[a, a]`, so the second push happened
while `a` was already pending. -/
theorem claim1_counterexample :
    (Reporter.generatePageReport webClaim1 "https://ex.com/" 1).map
        Reporter.ReportState.toVisit
      = some ["https://ex.com/a", "https://ex.com/a"] ∧
    ¬ (["https://ex.com/a", "https://ex.com/a"] : List String).Nodup := by
  exact ⟨by decide, by decide⟩

/-- Claim C1 (amended): in `crawlAndScreenshot` the pending queue never
holds duplicates or visited URLs and the visited set has no duplicates
(each URL is navigated at most once); in `generatePageReport` the queue
may hold duplicates, but the dequeue-time visited check still guarantees
each URL is navigated and recorded at most once per run. -/
theorem claim1_frontier_dedup :
    (∀ (env : String → Tester.FetchOutcome) (domain startUrl folder : String)
      (fuel : Nat),
      Tester.frontierInv (Tester.crawlRun env domain startUrl folder fuel
        ⟨[], [startUrl], []⟩)) ∧
    (∀ (env : String → Reporter.PageOutcome) (hostname startUrl : String)
      (fuel : Nat),
      ((Reporter.reportRun env hostname fuel
        ⟨[], [startUrl], []⟩).pageDetails.map Reporter.RPage.url).Nodup) := by
  constructor
  · intro env domain startUrl folder fuel
    exact Tester.crawlRun_inv env domain startUrl folder fuel _
      ⟨List.nodup_singleton _, by simp, List.nodup_nil⟩
  · intro env hostname startUrl fuel
    have h := Reporter.reportRun_inv env hostname fuel ⟨[], [startUrl], []⟩
      ⟨List.nodup_nil, rfl⟩
    rw [h.2]
    exact h.1

/-- Claim C10: every success-status baseline page increments exactly one
of `matchCount`, `changeCount`, `errorCount` in the `part_000`
comparison loop, so their sum equals the number of success-status
records in the loaded manifest. -/
theorem claim10_partition (baselinePages : List Tester.PageInfo)
    (env : String → Tester.CompareEnv) :
    (Tester.runCompare env (Tester.successPages baselinePages)).matchCount
      + (Tester.runCompare env (Tester.successPages baselinePages)).changeCount
      + (Tester.runCompare env (Tester.successPages baselinePages)).errorCount
    = (Tester.successPages baselinePages).length := by
  have h := Tester.foldl_classSum env (Tester.successPages baselinePages)
    Tester.initStats
  simpa [Tester.runCompare, Tester.initStats] using h

/-- Claim C2: the overall difference ratio reported by `compareMenu` is
the sum of differing pixels over all successfully-compared pages divided
by the sum of their areas; errored pages contribute to neither total. -/
theorem claim2_global_ratio (baselinePages : List Tester.PageInfo)
    (env : String → Tester.CompareEnv) :
    (Tester.runCompare env (Tester.successPages baselinePages)).totalDiffPixels
      = ((((Tester.successPages baselinePages).filterMap
          (Tester.comparedOutcome env)).map Prod.fst).sum) ∧
    (Tester.runCompare env
        (Tester.successPages baselinePages)).totalPixelsCompared
      = ((((Tester.successPages baselinePages).filterMap
          (Tester.comparedOutcome env)).map Prod.snd).sum) ∧
    (0 < (Tester.runCompare env
        (Tester.successPages baselinePages)).totalPixelsCompared →
      Tester.overallDiffRatio
          (Tester.runCompare env (Tester.successPages baselinePages))
        = (((((Tester.successPages baselinePages).filterMap
              (Tester.comparedOutcome env)).map Prod.fst).sum : ℚ))
          / (((((Tester.successPages baselinePages).filterMap
              (Tester.comparedOutcome env)).map Prod.snd).sum : ℚ))) := by
  obtain ⟨h1, h2, h3⟩ := Tester.foldl_totals env
    (Tester.successPages baselinePages) Tester.initStats
  have h1' : (Tester.runCompare env
      (Tester.successPages baselinePages)).totalDiffPixels
      = (((Tester.successPages baselinePages).filterMap
          (Tester.comparedOutcome env)).map Prod.fst).sum := by
    simpa [Tester.runCompare, Tester.initStats] using h1
  have h2' : (Tester.runCompare env
      (Tester.successPages baselinePages)).totalPixelsCompared
      = (((Tester.successPages baselinePages).filterMap
          (Tester.comparedOutcome env)).map Prod.snd).sum := by
    simpa [Tester.runCompare, Tester.initStats] using h2
  have h3' : (Tester.runCompare env
      (Tester.successPages baselinePages)).successfulComparisons
      = ((Tester.successPages baselinePages).filterMap
          (Tester.comparedOutcome env)).length := by
    simpa [Tester.runCompare, Tester.initStats] using h3
  refine ⟨h1', h2', ?_⟩
  intro hpos
  have hlen : 0 < ((Tester.successPages baselinePages).filterMap
      (Tester.comparedOutcome env)).length := by
    rcases hl : (Tester.successPages baselinePages).filterMap
        (Tester.comparedOutcome env) with _ | ⟨x, xs⟩
    · rw [h2', hl] at hpos
      simp at hpos
    · simp
  unfold Tester.overallDiffRatio
  rw [if_pos (h3' ▸ hlen), h1', h2']

/-- Claim C2 witness: one baseline page whose 1-by-2 images differ in one
of two pixels yields the pixel-weighted overall ratio 1/2. -/
theorem claim2_witness :
    0 < (Tester.runCompare envClaim2
      (Tester.successPages [pageFx])).totalPixelsCompared ∧
    Tester.overallDiffRatio
        (Tester.runCompare envClaim2 (Tester.successPages [pageFx]))
      = 1 / 2 := by
  have h := claim2_global_ratio [pageFx] envClaim2
  refine ⟨by decide, ?_⟩
  rw [h.2.2 (by decide)]
  have hs1 : ((((Tester.successPages [pageFx]).filterMap
      (Tester.comparedOutcome envClaim2)).map Prod.fst).sum) = 1 := by decide
  have hs2 : ((((Tester.successPages [pageFx]).filterMap
      (Tester.comparedOutcome envClaim2)).map Prod.snd).sum) = 2 := by decide
  rw [hs1, hs2]
  norm_num

/-- Claim C3 counterexample: the claim says images of different width or
height are always classified errored, but the comparison call hands
`pixelmatch` only the baseline's dimensions.  A 2-by-3 baseline and a
3-by-2 capture with the same six pixels have equal data sizes, so no
error is thrown and the page is classified `matched`, not `errored`. -/
theorem claim3_counterexample :
    (⟨2, 3, [0, 1, 2, 3, 4, 5]⟩ : Image).width
      ≠ (⟨3, 2, [0, 1, 2, 3, 4, 5]⟩ : Image).width ∧
    (⟨2, 3, [0, 1, 2, 3, 4, 5]⟩ : Image).height
      ≠ (⟨3, 2, [0, 1, 2, 3, 4, 5]⟩ : Image).height ∧
    (Tester.runCompare envClaim3 [pageFx]).matchCount = 1 ∧
    (Tester.runCompare envClaim3 [pageFx]).errorCount = 0 := by
  decide

/-- Claim C3 (amended): a page whose two well-formed images have
different pixel counts (in particular, different dimensions with
different areas) is classified errored — `pixelmatch` throws on the data
size mismatch and the catch block counts the page as an error. -/
theorem claim3_area_mismatch_errored (env : String → Tester.CompareEnv)
    (s : Tester.CompareStats) (p : Tester.PageInfo) (a b : Image)
    (henv : env p.url = Tester.CompareEnv.imgs a b)
    (ha : a.data.length = a.width * a.height)
    (hb : b.data.length = b.width * b.height)
    (hne : a.width * a.height ≠ b.width * b.height) :
    Tester.compareStep env s p =
      { s with errorCount := s.errorCount + 1,
               errorPages := s.errorPages ++
                 [(p.url, "Image sizes do not match.")] } := by
  have hpm : UITT.pixelmatch a.data b.data a.width a.height = none := by
    unfold pixelmatch
    rw [if_neg]
    rintro ⟨hl1, -⟩
    exact hne (by rw [← ha, hl1, hb])
  simp [Tester.compareStep, henv, hpm]

/-- Claim C3 witness: a 1-by-1 baseline against a 1-by-2 capture is
classified errored. -/
theorem claim3_witness :
    Tester.compareStep envClaim3W Tester.initStats pageFx =
      { Tester.initStats with
        errorCount := Tester.initStats.errorCount + 1,
        errorPages := Tester.initStats.errorPages ++
          [(pageFx.url, "Image sizes do not match.")] } :=
  claim3_area_mismatch_errored envClaim3W Tester.initStats pageFx
    ⟨1, 1, [0]⟩ ⟨1, 2, [0, 0]⟩ rfl (by decide) (by decide) (by decide)

/-- Claim C4 counterexample: in `ui-tester.js` a success-status baseline
page whose stored screenshot file is missing is only logged to the
console: the report counts 1 page compared but 0 matched and 0 changed,
has no error counter at all, and itemizes nothing — the failure is
silently dropped from the report. -/
theorem claim4_counterexample :
    TesterOld.buildReport envClaim4 [pageFx] =
      { totalCompared := 1, matched := 0, changed := 0, changedPages := [] } := by
  decide

/-- Claim C4 (amended): in the `part_000` comparison pass a missing
baseline screenshot increments the error counter and is itemized (the
error counter always equals the length of the itemized error list, and
every missing-baseline page appears in it); in the `ui-tester.js`
variant the same failure leaves the loop state completely unchanged. -/
theorem claim4_missing_baseline (env : String → Tester.CompareEnv)
    (pages : List Tester.PageInfo) :
    ((Tester.runCompare env pages).errorCount
      = (Tester.runCompare env pages).errorPages.length) ∧
    (∀ p ∈ pages, env p.url = Tester.CompareEnv.missing →
      (p.url, "Baseline screenshot not found")
        ∈ (Tester.runCompare env pages).errorPages) ∧
    (∀ (s : TesterOld.OldStats) (p : Tester.PageInfo),
      env p.url = Tester.CompareEnv.missing →
      TesterOld.compareStep env s p = s) := by
  have h := Tester.foldl_errs env pages Tester.initStats
  refine ⟨h.1.mpr rfl, fun p hp hm => h.2.2 p hp hm, ?_⟩
  intro s p hm
  simp [TesterOld.compareStep, hm]

/-- Claim C4 witness: with one success page and a missing baseline file,
the error counter matches the itemized list, which holds the page. -/
theorem claim4_witness :
    ((Tester.runCompare envClaim4 [pageFx]).errorCount
      = (Tester.runCompare envClaim4 [pageFx]).errorPages.length) ∧
    (pageFx.url, "Baseline screenshot not found")
      ∈ (Tester.runCompare envClaim4 [pageFx]).errorPages := by
  have h := claim4_missing_baseline envClaim4 [pageFx]
  exact ⟨h.1, h.2.1 pageFx (List.mem_singleton.mpr rfl) rfl⟩

/-- Claim C5 counterexample: `"/page"` and `"/page#section"` differ only
by their fragment, but the root-relative branch of `normalizeUrl`
concatenates the raw link onto `protocol//host` without stripping the
fragment, so the two links normalize to different strings (and the first
result even keeps its fragment). -/
theorem claim5_counterexample :
    ("/page#section" : String) = "/page" ++ "#" ++ "section" ∧
    Tester.normalizeUrl "/page#section" "https://example.com/"
      = some "https://example.com/page#section" ∧
    Tester.normalizeUrl "/page" "https://example.com/"
      = some "https://example.com/page" ∧
    some ("https://example.com/page#section" : String)
      ≠ some ("https://example.com/page" : String) := by
  refine ⟨by decide, by decide, by decide, by decide⟩

/-- Claim C5 (amended): two links that differ only by fragment normalize
identically provided the link is not root-relative (the `/`-prefixed
branch keeps fragments, see the counterexample); and a root-relative
link and its absolute form against the same http(s) base normalize to
the same string provided the path consists of unreserved characters and
slashes and has no `.` or `..` segments — outside those conditions the
absolute form is percent-encoded or dot-collapsed by the URL serializer
while the root-relative branch returns the raw concatenation, so the two
can differ. -/
theorem claim5_fragment_invariance :
    (∀ u f b : String, u.data ≠ [] → '#' ∉ u.data →
      u.data.head? ≠ some '/' →
      Tester.normalizeUrl (u ++ "#" ++ f) b = Tester.normalizeUrl u b) ∧
    (∀ (b p : String) (r : URLRec), UITT.parseURL b = some r →
      p.data.head? = some '/' →
      (∀ c ∈ p.data, c.isAlphanum = true ∨ c = '/' ∨ c = '-' ∨ c = '_'
        ∨ c = '~' ∨ c = '.') →
      (∀ seg ∈ UITT.splitOnChar '/' p.data, seg ≠ ['.'] ∧ seg ≠ ['.', '.']) →
      (r.scheme = "http" ∨ r.scheme = "https") →
      Tester.normalizeUrl p b = some (r.scheme ++ "://" ++ r.host ++ p) ∧
      Tester.normalizeUrl (r.scheme ++ "://" ++ r.host ++ p) b
        = some (r.scheme ++ "://" ++ r.host ++ p)) := by
  constructor
  · intro u f b hne hnoh hhead
    have hud := hash_append_data u f
    have hu1head : (u ++ "#" ++ f).data.head? = u.data.head? := by
      rw [hud]
      cases hu : u.data with
      | nil => exact absurd hu hne
      | cons c t => rfl
    have hsl_u : strStartsWith u "/" = false :=
      Bool.eq_false_iff.mpr fun h => hhead (strStartsWith_slash.mp h)
    have hsl_u1 : strStartsWith (u ++ "#" ++ f) "/" = false :=
      Bool.eq_false_iff.mpr fun h =>
        hhead (hu1head ▸ strStartsWith_slash.mp h)
    have hh_u : strStartsWith u "#" = false :=
      Bool.eq_false_iff.mpr fun h =>
        hnoh (head?_mem (strStartsWith_hashchar.mp h))
    have hh_u1 : strStartsWith (u ++ "#" ++ f) "#" = false :=
      Bool.eq_false_iff.mpr fun h =>
        hnoh (head?_mem (hu1head ▸ strStartsWith_hashchar.mp h))
    have hm_eq : strStartsWith (u ++ "#" ++ f) "mailto:"
        = strStartsWith u "mailto:" := strStartsWith_hash_append (by decide) hud
    have ht_eq : strStartsWith (u ++ "#" ++ f) "tel:"
        = strStartsWith u "tel:" := strStartsWith_hash_append (by decide) hud
    have hj_eq : strStartsWith (u ++ "#" ++ f) "javascript:"
        = strStartsWith u "javascript:" := strStartsWith_hash_append (by decide) hud
    unfold Tester.normalizeUrl
    simp only [hsl_u, hsl_u1, hh_u, hh_u1, hm_eq, ht_eq, hj_eq,
      Bool.false_eq_true, if_false]
    by_cases hor : (strStartsWith u "mailto:" || strStartsWith u "tel:"
        || strStartsWith u "javascript:") = true
    · rw [if_pos hor, if_pos hor]
    · rw [if_neg hor, if_neg hor]
      have hbh1 : beforeHash (u ++ "#" ++ f).data = u.data := by
        unfold beforeHash
        rw [hud, splitOnFirst_append_cons hnoh]
      have hbh2 : beforeHash u.data = u.data := by
        unfold beforeHash
        rw [splitOnFirst_not_mem hnoh]
      unfold resolveChars
      rw [hbh1, hbh2]
      cases hrc : resolveCore u.data b.data with
      | none => rfl
      | some r => rfl
  · intro b p r hb hphead hpuns hpnodot hscheme
    have hpchars : ∀ c ∈ p.data, c ≠ '?' ∧ c ≠ '#' := by
      intro c hc
      rcases hpuns c hc with h | h | h | h | h | h
      · refine ⟨fun he => ?_, fun he => ?_⟩
        · rw [he] at h
          exact absurd h (by decide)
        · rw [he] at h
          exact absurd h (by decide)
      all_goals subst h; exact ⟨by decide, by decide⟩
    obtain ⟨g1, g2, g3, g4, g5, g6, g7⟩ := parseURLChars_good hb
    have hps : strStartsWith p "/" = true := strStartsWith_slash.mpr hphead
    have hfirst : Tester.normalizeUrl p b
        = some (r.scheme ++ "://" ++ r.host ++ p) := by
      unfold Tester.normalizeUrl
      rw [if_pos hps, hb]
    refine ⟨hfirst, ?_⟩
    have hgR : goodURL (⟨r.scheme, r.host, p, none, none⟩ : URLRec) :=
      ⟨g1, g2, g3, g4, hphead, hpchars, fun q hq => Option.noConfusion hq⟩
    have hv : r.scheme ++ "://" ++ r.host ++ p
        = serializeURL ⟨r.scheme, r.host, p, none, none⟩ := by
      apply String.ext
      rw [serializeURL_data_none _ rfl rfl]
      have hd : ("://" : String).data = [':', '/', '/'] := rfl
      simp [String.data_append, hd]
    have hhead' : (serializeURL
        (⟨r.scheme, r.host, p, none, none⟩ : URLRec)).data.head? = some 'h' := by
      rw [serializeURL_data_none _ rfl rfl]
      rcases hscheme with h | h
      · show (r.scheme.data ++ _).head? = _
        rw [h]
        rfl
      · show (r.scheme.data ++ _).head? = _
        rw [h]
        rfl
    have hm := strStartsWith_false_of_head hhead'
      (show ("mailto:" : String).data.head? = some 'm' from rfl) (by decide)
    have ht := strStartsWith_false_of_head hhead'
      (show ("tel:" : String).data.head? = some 't' from rfl) (by decide)
    have hj := strStartsWith_false_of_head hhead'
      (show ("javascript:" : String).data.head? = some 'j' from rfl) (by decide)
    rw [hv]
    exact normalizeUrl_serialized hgR rfl hm ht hj b

/-- Claim C5 witness: a path-relative link is fragment-invariant, and the
root-relative and absolute forms of `/p` against the same base agree. -/
theorem claim5_witness :
    Tester.normalizeUrl ("about" ++ "#" ++ "top") "https://example.com/"
      = Tester.normalizeUrl "about" "https://example.com/" ∧
    Tester.normalizeUrl "/p" "https://example.com/"
      = some ("https" ++ "://" ++ "example.com" ++ "/p") ∧
    Tester.normalizeUrl ("https" ++ "://" ++ "example.com" ++ "/p")
        "https://example.com/"
      = some ("https" ++ "://" ++ "example.com" ++ "/p") := by
  have h1 := claim5_fragment_invariance.1 "about" "top" "https://example.com/"
    (by decide) (by decide) (by decide)
  have h2 := claim5_fragment_invariance.2 "https://example.com/" "/p"
    ⟨"https", "example.com", "/", none, none⟩ (by decide) (by decide)
    (by decide) (by decide) (Or.inr rfl)
  exact ⟨h1, h2.1, h2.2⟩

/-- Claim C6 counterexample: the claim says every non-http/https scheme is
rejected, but only `mailto:`, `tel:` and `javascript:` prefixes are
checked: an `ftp://` link passes through `normalizeUrl` unchanged. -/
theorem claim6_counterexample :
    Tester.normalizeUrl "ftp://files.example.com/data" "https://example.com/"
      = some "ftp://files.example.com/data" ∧
    (UITT.parseURL "ftp://files.example.com/data").map URLRec.scheme
      = some "ftp" ∧
    ("ftp" : String) ≠ "http" ∧ ("ftp" : String) ≠ "https" := by
  refine ⟨by decide, by decide, by decide, by decide⟩

/-- Claim C6 (amended): every URL `normalizeUrl` returns is absolute in
the sense that it begins with a non-empty scheme of scheme characters
followed by `:` (hierarchical results continue with `//host`; an
opaque-path scheme such as `data:` keeps its opaque remainder); and
fragment-only, `mailto:`, `tel:` and `javascript:` links are rejected.
But schemes other than those three prefixes (such as `ftp:`) are not
rejected, so the result's scheme need not be http(s). -/
theorem claim6_scheme_filter :
    (∀ url baseUrl v : String, Tester.normalizeUrl url baseUrl = some v →
      ∃ (sch : String) (rest : List Char), sch.data ≠ [] ∧
        (∀ c ∈ sch.data, UITT.schemeChar c = true) ∧
        v.data = sch.data ++ ':' :: rest) ∧
    (∀ x baseUrl : String,
      Tester.normalizeUrl ("mailto:" ++ x) baseUrl = none) ∧
    (∀ x baseUrl : String,
      Tester.normalizeUrl ("tel:" ++ x) baseUrl = none) ∧
    (∀ x baseUrl : String,
      Tester.normalizeUrl ("javascript:" ++ x) baseUrl = none) ∧
    (∀ x baseUrl : String,
      Tester.normalizeUrl ("#" ++ x) baseUrl = none) := by
  refine ⟨?_, ?_, ?_, ?_, ?_⟩
  · intro url baseUrl v h
    unfold Tester.normalizeUrl at h
    by_cases h1 : strStartsWith url "/" = true
    · rw [if_pos h1] at h
      split at h
      · rename_i b hb
        rw [Option.some_inj] at h
        obtain ⟨g1, g2, g3, g4, g5, g6, g7⟩ := parseURLChars_good hb
        refine ⟨b.scheme, '/' :: '/' :: (b.host.data ++ url.data), g1, g2, ?_⟩
        rw [← h]
        have hd : ("://" : String).data = [':', '/', '/'] := rfl
        simp [String.data_append, hd]
      · exact Option.noConfusion h
    · rw [if_neg h1] at h
      by_cases h2 : strStartsWith url "#" = true
      · rw [if_pos h2] at h
        exact Option.noConfusion h
      rw [if_neg h2] at h
      by_cases h3 : (strStartsWith url "mailto:" || strStartsWith url "tel:"
          || strStartsWith url "javascript:") = true
      · rw [if_pos h3] at h
        exact Option.noConfusion h
      rw [if_neg h3] at h
      split at h
      · rename_i r hr
        rw [Option.some_inj] at h
        obtain ⟨⟨g1, g2, g3, g4, g5, g6, g7⟩, -⟩ := resolveChars_good hr
        cases hs : r.search with
        | none =>
          refine ⟨r.scheme,
            '/' :: '/' :: (r.host.data ++ r.pathname.data), g1, g2, ?_⟩
          rw [← h]
          exact serializeURL_data_none _ rfl hs
        | some q =>
          refine ⟨r.scheme,
            ('/' :: '/' :: (r.host.data ++ r.pathname.data)) ++ '?' :: q.data,
            g1, g2, ?_⟩
          rw [← h, serializeURL_data_some
            ⟨r.scheme, r.host, r.pathname, r.search, none⟩ rfl hs]
          simp [List.cons_append, List.append_assoc]
      · exact Option.noConfusion h
  · intro x baseUrl
    unfold Tester.normalizeUrl
    have hx : (("mailto:" ++ x) : String).data.head? = some 'm' :=
      append_head rfl
    rw [if_neg (by simp [strStartsWith_false_of_head hx
        (show ("/" : String).data.head? = some '/' from rfl) (by decide)])]
    rw [if_neg (by simp [strStartsWith_false_of_head hx
        (show ("#" : String).data.head? = some '#' from rfl) (by decide)])]
    rw [if_pos (by simp [strStartsWith_append_self "mailto:" x])]
  · intro x baseUrl
    unfold Tester.normalizeUrl
    have hx : (("tel:" ++ x) : String).data.head? = some 't' :=
      append_head rfl
    rw [if_neg (by simp [strStartsWith_false_of_head hx
        (show ("/" : String).data.head? = some '/' from rfl) (by decide)])]
    rw [if_neg (by simp [strStartsWith_false_of_head hx
        (show ("#" : String).data.head? = some '#' from rfl) (by decide)])]
    rw [if_pos (by simp [strStartsWith_append_self "tel:" x])]
  · intro x baseUrl
    unfold Tester.normalizeUrl
    have hx : (("javascript:" ++ x) : String).data.head? = some 'j' :=
      append_head rfl
    rw [if_neg (by simp [strStartsWith_false_of_head hx
        (show ("/" : String).data.head? = some '/' from rfl) (by decide)])]
    rw [if_neg (by simp [strStartsWith_false_of_head hx
        (show ("#" : String).data.head? = some '#' from rfl) (by decide)])]
    rw [if_pos (by simp [strStartsWith_append_self "javascript:" x])]
  · intro x baseUrl
    unfold Tester.normalizeUrl
    have hx : (("#" ++ x) : String).data.head? = some '#' :=
      append_head rfl
    rw [if_neg (by simp [strStartsWith_false_of_head hx
        (show ("/" : String).data.head? = some '/' from rfl) (by decide)])]
    rw [if_pos (by simp [strStartsWith_hashchar.mpr hx])]

/-- Claim C6 witness: an absolute https link is returned and has the
scheme-colon shape, and a concrete `mailto:` link is rejected. -/
theorem claim6_witness :
    Tester.normalizeUrl "https://a.com/x" "https://base.org/"
      = some "https://a.com/x" ∧
    (∃ (sch : String) (rest : List Char), sch.data ≠ [] ∧
      (∀ c ∈ sch.data, UITT.schemeChar c = true) ∧
      ("https://a.com/x" : String).data = sch.data ++ ':' :: rest) ∧
    Tester.normalizeUrl ("mailto:" ++ "bob@a.com") "https://base.org/"
      = none := by
  refine ⟨by decide, ?_,
    claim6_scheme_filter.2.1 "bob@a.com" "https://base.org/"⟩
  exact claim6_scheme_filter.1 "https://a.com/x" "https://base.org/" _ (by decide)

/-- Claim C7 counterexample: normalization is not idempotent — a
root-relative link with a fragment normalizes to a string that still
carries the fragment, and normalizing that result strips it, giving a
different string: `normalize(normalize(u)) ≠ normalize(u)`. -/
theorem claim7_counterexample :
    Tester.normalizeUrl "/page#sec" "https://example.com/"
      = some "https://example.com/page#sec" ∧
    Tester.normalizeUrl "https://example.com/page#sec" "https://example.com/"
      = some "https://example.com/page" ∧
    some ("https://example.com/page" : String)
      ≠ some ("https://example.com/page#sec" : String) := by
  refine ⟨by decide, by decide, by decide⟩

/-- Claim C7 (amended): normalization is idempotent for every link that
does not take the root-relative branch (which can leak a fragment, see
the counterexample) and whose result does not start with one of the
rejected prefixes: if `normalizeUrl u b = some v` then
`normalizeUrl v b2 = some v` for any base. -/
theorem claim7_idempotent (u b b2 v : String)
    (hslash : UITT.strStartsWith u "/" = false)
    (hv : Tester.normalizeUrl u b = some v)
    (hm : UITT.strStartsWith v "mailto:" = false)
    (ht : UITT.strStartsWith v "tel:" = false)
    (hj : UITT.strStartsWith v "javascript:" = false) :
    Tester.normalizeUrl v b2 = some v := by
  unfold Tester.normalizeUrl at hv
  rw [if_neg (by simp [hslash])] at hv
  by_cases h2 : strStartsWith u "#" = true
  · rw [if_pos h2] at hv
    exact Option.noConfusion hv
  rw [if_neg h2] at hv
  by_cases h3 : (strStartsWith u "mailto:" || strStartsWith u "tel:"
      || strStartsWith u "javascript:") = true
  · rw [if_pos h3] at hv
    exact Option.noConfusion hv
  rw [if_neg h3] at hv
  split at hv
  · rename_i r hr
    rw [Option.some_inj] at hv
    obtain ⟨hgr, -⟩ := resolveChars_good hr
    have hgR : goodURL { r with hash := none } := hgr
    subst hv
    exact normalizeUrl_serialized hgR rfl hm ht hj b2
  · exact Option.noConfusion hv

/-- Claim C7 witness: the path-relative link `a/b` normalizes to an
absolute URL on which normalization is the identity. -/
theorem claim7_witness :
    Tester.normalizeUrl "a/b" "https://example.com/"
      = some "https://example.com/a/b" ∧
    Tester.normalizeUrl "https://example.com/a/b" "https://example.com/"
      = some "https://example.com/a/b" := by
  refine ⟨by decide, ?_⟩
  exact claim7_idempotent "a/b" "https://example.com/" "https://example.com/"
    "https://example.com/a/b" (by decide) (by decide) (by decide) (by decide)
    (by decide)

/-- Claim C8 counterexample: the claim says every non-alphanumeric
character is replaced by an underscore, but the snapshot filename
function of the UI tester keeps `.` and `-`: the dot of the hostname
survives into the filename. -/
theorem claim8_counterexample :
    Tester.createSafeFileName "https://a.com/x" = "a.com_x" ∧
    '.' ∈ ("a.com_x" : String).data ∧ ('.').isAlphanum = false := by
  refine ⟨by decide, by decide, by decide⟩

/-- Claim C8 (amended): both filename derivations are pure functions of
the URL.  The Reporter variant replaces every non-alphanumeric character
by `_`, caps the result at 100 characters and never returns an empty
name; the UI-tester variant (used for the actual snapshots) keeps `.`
and `-` as well, has no length cap, and never returns an empty name. -/
theorem claim8_safe_filename :
    (∀ url : String,
      ((Reporter.createSafeFileName url).data.all
        (fun c => c.isAlphanum || c == '_')) = true ∧
      (Reporter.createSafeFileName url).data.length ≤ 100 ∧
      (Reporter.createSafeFileName url).data ≠ []) ∧
    (∀ url : String,
      ((Tester.createSafeFileName url).data.all
        (fun c => c.isAlphanum || c == '.' || c == '-' || c == '_')) = true ∧
      (Tester.createSafeFileName url).data ≠ []) := by
  constructor
  · intro url
    cases hp : UITT.parseURL url with
    | none =>
      simp only [Reporter.createSafeFileName, hp]
      refine ⟨by decide, by decide, by decide⟩
    | some r =>
      simp only [Reporter.createSafeFileName, hp]
      split
      · exact ⟨by decide, by decide, by decide⟩
      · rename_i hne
        refine ⟨?_, ?_, ?_⟩
        · rw [List.all_eq_true]
          intro c hc
          have hc2 := List.take_subset _ _ hc
          rcases mem_processed hc2 with hk | heq
          · simp [hk]
          · simp [heq]
        · exact List.length_take_le _ _
        · exact hne
  · intro url
    cases hp : UITT.parseURL url with
    | none =>
      simp only [Tester.createSafeFileName, hp]
      exact ⟨by decide, by decide⟩
    | some r =>
      simp only [Tester.createSafeFileName, hp]
      split
      · exact ⟨by decide, by decide⟩
      · rename_i hne
        refine ⟨?_, ?_⟩
        · rw [List.all_eq_true]
          intro c hc
          rcases mem_processed hc with hk | heq
          · simp only [Bool.or_eq_true, decide_eq_true_eq, beq_iff_eq] at hk ⊢
            tauto
          · simp [heq]
        · exact hne

/-- Claim C9: the manifest round-trips — parsing the JSON value written
for `pages.json` reproduces every page record, including its snapshot
path, and hence the page count.  (The model works at the JSON value
level; that JSON text serialization round-trips such values is assumed,
and the snapshot files themselves are not touched by save or load.) -/
theorem claim9_manifest_roundtrip (pages : List Tester.PageInfo) :
    Tester.loadPages (Tester.savePages pages) = some pages :=
  Tester.mapM_pageFromJson pages

end UITT
